import Mathlib

/-!
# Verification of the chess-engine core against its specification

Shallow embedding of the `chess-engine` repository (crates `chess_engine_core`
and `chess_engine_movegen`).  Bitboards (`u64` in the source) are modelled as
`Nat` with explicit `% 2^64` wherever the 64-bit width matters; fallible code
returns `Except`/`Option`; Rust panics (`unreachable!`, failed `assert!`) are
modelled by an explicit `panicked` outcome.  Loops that repeatedly extract the
least-significant bit of a 64-bit bitboard run for at most 64 iterations, so
they are written with an explicit structural bound of 64 where a direct
termination argument on `Nat` would need a width hypothesis.
-/

set_option maxRecDepth 10000

namespace Chess

/-- `2^64`, the modulus of Rust `u64` arithmetic. -/
def U64 : Nat := 18446744073709551616

/-- `u64::MAX`, i.e. `2^64 - 1`; used to model Rust's `!` (bitwise not) on `u64`. -/
def U64MAX : Nat := 18446744073709551615

/-- Source: `BitBoard` is a wrapper over `u64`; we model the payload directly. -/
abbrev BitBoard := Nat

/-- Mask of all squares outside file A (`bitboard!` constant in `BitBoard::right`). -/
def NOT_FILE_A : Nat := 0xFEFEFEFEFEFEFEFE

/-- Mask of all squares outside file H (`bitboard!` constant in `BitBoard::left`). -/
def NOT_FILE_H : Nat := 0x7F7F7F7F7F7F7F7F

/-- Source: `BitBoard::up`, `self.0 << 8` on `u64` (wrapping shift). -/
def bbUp (b : BitBoard) : BitBoard := (b <<< 8) % U64

/-- Source: `BitBoard::down`, `self.0 >> 8`. -/
def bbDown (b : BitBoard) : BitBoard := b >>> 8

/-- Source: `BitBoard::right`, `self.0 << 1 & NOT_FILE_A`. -/
def bbRight (b : BitBoard) : BitBoard := ((b <<< 1) % U64) &&& NOT_FILE_A

/-- Source: `BitBoard::left`, `self.0 >> 1 & NOT_FILE_H`. -/
def bbLeft (b : BitBoard) : BitBoard := (b >>> 1) &&& NOT_FILE_H

/-- Source: `BitBoard::set_bit`, `self.0 | bit`. -/
def setBit (b bit : BitBoard) : BitBoard := b ||| bit

/-- Source: `BitBoard::unset_bit`, `self.0 & !bit` (`!` on `u64`). -/
def unsetBit (b bit : BitBoard) : BitBoard := b &&& (U64MAX ^^^ bit)

/-- Source: `Square::bitboard`, the singleton bitboard `1u64 << square`. -/
def squareBB (sq : Nat) : BitBoard := (1 <<< sq) % U64

/-- Source: `BitBoard::set_square`. -/
def setSquare (b : BitBoard) (sq : Nat) : BitBoard := setBit b (squareBB sq)

/-- Source: `BitBoard::unset_square`. -/
def unsetSquare (b : BitBoard) (sq : Nat) : BitBoard := unsetBit b (squareBB sq)

/-- Source: `BitBoard::is_get_bit`, `self.0 & bit != 0`. -/
def isGetBit (b bit : BitBoard) : Bool := b &&& bit != 0

/-- Source: `BitBoard::is_get_square`. -/
def isGetSquare (b : BitBoard) (sq : Nat) : Bool := isGetBit b (squareBB sq)

/-- Helper for `lsb`: scan at most `fuel` low bits for the first set one. -/
def lsbAux : Nat → Nat → Nat
  | 0, _ => 0
  | fuel + 1, b => if b % 2 = 1 then 0 else 1 + lsbAux fuel (b / 2)

/-- Index of the least significant set bit (`u64::trailing_zeros` on a nonzero
word).  A nonzero `u64` has a set bit among its low 64 bits, so scanning 64
positions is exact; callers guard with `b ≠ 0` as `least_significant_square`
does. -/
def lsb (b : Nat) : Nat := lsbAux 64 b

/-- Source: `BitBoard::least_significant_square`. -/
def leastSignificantSquare (b : BitBoard) : Option Nat :=
  if b = 0 then none else some (lsb b)

/-- Helper for `popcount`: sum of the `fuel` lowest bits. -/
def popcountAux : Nat → Nat → Nat
  | 0, _ => 0
  | fuel + 1, b => b % 2 + popcountAux fuel (b / 2)

/-- Source: `u64::count_ones` (`BitBoard::len`); exact for 64-bit words. -/
def popcount (b : Nat) : Nat := popcountAux 64 b

/-- The set squares of a bitboard in ascending order, as produced by
`BitBoardIter` (repeated `least_significant_square` / `unset_square`).
The structural bound `fuel` is instantiated with 64: every iteration removes
one bit from a 64-bit word, so 64 steps always suffice. -/
def bbListAux : Nat → BitBoard → List Nat
  | 0, _ => []
  | fuel + 1, b =>
    match leastSignificantSquare b with
    | none => []
    | some sq => sq :: bbListAux fuel (unsetSquare b sq)

/-- Iteration over a bitboard's set squares (`impl IntoIterator for BitBoard`). -/
def bbList (b : BitBoard) : List Nat := bbListAux 64 b

/-! ## The value model (`chess_engine_core`) -/

/-- Source: `enum Color { White, Black }`. -/
inductive Color where
  | White
  | Black
deriving DecidableEq, Repr

/-- `Color as usize` (discriminant). -/
def Color.toIdx : Color → Nat
  | .White => 0
  | .Black => 1

/-- Source: `impl Not for Color`. -/
def Color.negate : Color → Color
  | .White => .Black
  | .Black => .White

/-- Source: `enum PieceType { Pawn, Knight, Bishop, Rook, Queen, King }`. -/
inductive PieceType where
  | Pawn
  | Knight
  | Bishop
  | Rook
  | Queen
  | King
deriving DecidableEq, Repr

/-- `PieceType as usize` (discriminant). -/
def PieceType.toIdx : PieceType → Nat
  | .Pawn => 0
  | .Knight => 1
  | .Bishop => 2
  | .Rook => 3
  | .Queen => 4
  | .King => 5

/-- Source: `struct Piece { piece_type, color }`. -/
structure Piece where
  pieceType : PieceType
  color : Color
deriving DecidableEq, Repr

/-- Modelled from the spec: `Square` (the file `core/src/square.rs` is not in
the source tree; the spec fixes `index = rank*8 + file`, `a1 = 0`, `h8 = 63`).
We keep squares as `Nat` indices; `rank` and `file` are the projections. -/
def Square.rank (sq : Nat) : Nat := sq / 8

/-- Modelled from the spec: the file of a square. -/
def Square.file (sq : Nat) : Nat := sq % 8

/-- Modelled from the spec: `Square::with_file_rank(file, rank) = rank*8 + file`. -/
def Square.withFileRank (file rank : Nat) : Nat := rank * 8 + file

/-- Modelled from the spec: "The diagonal color of a square is white if
`(file + rank)` is odd, else black (a1 is dark)."  This agrees with the parity
branching of `Square::color` in the sibling crate's `core/square.rs`. -/
def Square.color (sq : Nat) : Color :=
  if (Square.file sq + Square.rank sq) % 2 = 1 then .White else .Black

/-! ## `Move` and `PieceMoves` (`core/src/move.rs`, `core/src/piece_moves.rs`) -/

/-- Source: `struct Move { from, to, promotion }`. -/
structure Move where
  from_ : Nat
  dst : Nat
  promotion : Option PieceType
deriving DecidableEq, Repr

/-- Source: `struct PieceMoves { piece, from, to }`. -/
structure PieceMoves where
  piece : Piece
  from_ : Nat
  dst : BitBoard
deriving DecidableEq, Repr

/-- One step of `PieceMovesIter::next` (`core/src/piece_moves.rs` lines 68-93).
State is the remaining `to` bitboard together with the `promotion : u8`
counter; the square extracted is removed from `to` unconditionally, exactly as
in the source. -/
def pieceMovesNext (pm : PieceMoves) (promoCounter : Nat) :
    Option (Move × (PieceMoves × Nat)) :=
  match leastSignificantSquare pm.dst with
  | none => none
  | some toSq =>
    let pm' : PieceMoves := { pm with dst := unsetSquare pm.dst toSq }
    if pm.piece.pieceType = PieceType.Pawn ∧ promoCounter < 3 ∧
        (Square.rank toSq = 0 ∨ Square.rank toSq = 7) then
      let promo : Option PieceType :=
        if promoCounter = 0 then some .Knight
        else if promoCounter = 1 then some .Bishop
        else if promoCounter = 2 then some .Rook
        else if promoCounter = 3 then some .Queen
        else none
      some (⟨pm.from_, toSq, promo⟩, (pm', promoCounter + 1))
    else
      some (⟨pm.from_, toSq, none⟩, (pm', 0))

/-- Exhausting `PieceMovesIter` (source `PieceMoves::moves`, i.e.
`self.into_iter().collect()`).  Each `next` removes one bit from a 64-bit
`to` board, so 64 iterations always suffice; `fuel = 64` at the wrapper. -/
def pieceMovesListAux : Nat → PieceMoves → Nat → List Move
  | 0, _, _ => []
  | fuel + 1, pm, promoCounter =>
    match pieceMovesNext pm promoCounter with
    | none => []
    | some (mv, (pm', promoCounter')) => mv :: pieceMovesListAux fuel pm' promoCounter'

/-- Source: `PieceMoves::moves` — the move list produced by iterating a
`PieceMoves` record (iterator starts with `promotion = 0`). -/
def pieceMovesList (pm : PieceMoves) : List Move := pieceMovesListAux 64 pm 0

/-! ## Zobrist hashing (`src/board/zobrist.rs`, `movegen/src/state.rs`) -/

/-- Source: `enum CastleRightsType { None, KingSide, QueenSide, Both }`. -/
inductive CastleRightsType where
  | NoRights
  | KingSide
  | QueenSide
  | Both
deriving DecidableEq, Repr

/-- `CastleRightsType as usize` (discriminant). -/
def CastleRightsType.toIdx : CastleRightsType → Nat
  | .NoRights => 0
  | .KingSide => 1
  | .QueenSide => 2
  | .Both => 3

/-- `CastleRightsType::new` on an index `< 4` (out-of-range is unreachable for
the in-lattice OR, see `try_bitor_assign`). -/
def CastleRightsType.ofIdx : Nat → CastleRightsType
  | 0 => .NoRights
  | 1 => .KingSide
  | 2 => .QueenSide
  | _ => .Both

/-- Source: `struct CastleRights(pub [CastleRightsType; Color::LEN])`. -/
structure CastleRights where
  white : CastleRightsType
  black : CastleRightsType
deriving DecidableEq, Repr

/-- Indexing `CastleRights.0[color]`. -/
def CastleRights.get (cr : CastleRights) : Color → CastleRightsType
  | .White => cr.white
  | .Black => cr.black

/-- The Zobrist key table (`struct Zobrist`): one `u64` per feature.  The
fixed-size arrays `pieces : [[[u64; 6]; 2]; 64]`, `en_passant : [[u64; 8]; 2]`
and `castling_rights : [[u64; 4]; 2]` are modelled as functions of the array
indices.  The table's contents are random at process start, so every theorem
quantifies over the table. -/
structure Zobrist where
  playerKey : Nat
  pieceKey : Nat → Nat → Nat → Nat
  epKey : Nat → Nat → Nat
  castleKey : Nat → Nat → Nat

/-- The all-zero table, source `impl Default for Zobrist`. -/
def Zobrist.zeroTable : Zobrist :=
  { playerKey := 0, pieceKey := fun _ _ _ => 0, epKey := fun _ _ => 0,
    castleKey := fun _ _ => 0 }

/-- Source: `Zobrist::en_passant` (`src/board/zobrist.rs` lines 111-116):

    self.en_passant[(en_passant_square.rank() == Rank::Three) as usize]
        [en_passant_square.rank() as usize]

Both indices are computed from the square's rank (the callers' `assert!`
guarantees the rank is Three or Six, so the second index is 2 or 5 and stays
inside the `FILES`-sized dimension). -/
def Zobrist.enPassantKey (z : Zobrist) (epSquare : Nat) : Nat :=
  z.epKey (if Square.rank epSquare = 2 then 1 else 0) (Square.rank epSquare)

/-- Source: `Zobrist::piece` — `pieces[square][color][piece_type]`. -/
def Zobrist.pieceHash (z : Zobrist) (sq : Nat) (p : Piece) : Nat :=
  z.pieceKey sq p.color.toIdx p.pieceType.toIdx

/-- Source: `Zobrist::castling_rights` — `castling_rights[color][rights]`. -/
def Zobrist.castlingKey (z : Zobrist) (c : Color) (t : CastleRightsType) : Nat :=
  z.castleKey c.toIdx t.toIdx

/-- Source: `struct State` (`movegen/src/state.rs`). -/
structure State where
  color : Color
  castlingRights : CastleRights
  enPassantSquare : Option Nat
  halfmoveClock : Nat
  fullmoveCounter : Nat
  hash : Nat
deriving DecidableEq, Repr

/-- Source: `State::MAX_HALFMOVE_CLOCK`. -/
def MAX_HALFMOVE_CLOCK : Nat := 100

/-- Source: `State::default()`. -/
def State.default : State :=
  { color := .White, castlingRights := ⟨.NoRights, .NoRights⟩,
    enPassantSquare := none, halfmoveClock := 0, fullmoveCounter := 1, hash := 0 }

/-- Source: `State::partial_hash` (`movegen/src/state.rs` lines 265-281):
start from 0, XOR the side key when White is to move, XOR the castling key of
each color, XOR the en-passant key when the square is set. -/
def State.partHash (z : Zobrist) (st : State) : Nat :=
  let h0 : Nat := 0
  let h1 := if st.color = Color.White then h0 ^^^ z.playerKey else h0
  let h2 := h1 ^^^ z.castlingKey .White (st.castlingRights.get .White)
  let h3 := h2 ^^^ z.castlingKey .Black (st.castlingRights.get .Black)
  match st.enPassantSquare with
  | none => h3
  | some ep => h3 ^^^ z.enPassantKey ep

end Chess

/-! ## Claims C1 and C2 -/

namespace Chess

/-- Claim C1 (code behaviour at the failing input): the pawn `PieceMoves`
record with origin a7 (square 48) and the single destination a8 (square 56,
on the last rank) iterates to exactly ONE move, the Knight promotion
`a7a8n` — not the four promotions N,B,R,Q required by the claim.  The
iterator removes the destination square from `to` on the first call to
`next`, so the promotion counter never reaches Bishop, Rook or Queen. -/
theorem c1_promotion_iteration_yields_single_move :
    pieceMovesList ⟨⟨.Pawn, .White⟩, 48, squareBB 56⟩ =
      [⟨48, 56, some PieceType.Knight⟩] := by
  decide

/-- Claim C2 (code behaviour): the en-passant Zobrist contribution depends
only on the RANK of the en-passant square, never on its file.  For every
Zobrist table and any two states that are identical except for the file of
their en-passant squares (both on rank Three here), `partial_hash` returns
the same value — contradicting the claim that the key is selected by the
en-passant file and that states differing in that file XOR in distinct
entries.  The cause is `Zobrist::en_passant` indexing its `FILES`-sized
dimension with `rank() as usize`. -/
theorem c2_partial_hash_ignores_en_passant_file (z : Zobrist)
    (c : Color) (cr : CastleRights) (hm fm hsh : Nat) (f1 f2 : Nat)
    (h1 : f1 < 8) (h2 : f2 < 8) :
    State.partHash z ⟨c, cr, some (Square.withFileRank f1 2), hm, fm, hsh⟩ =
      State.partHash z ⟨c, cr, some (Square.withFileRank f2 2), hm, fm, hsh⟩ := by
  unfold State.partHash Zobrist.enPassantKey Square.withFileRank Square.rank
  have e1 : (2 * 8 + f1) / 8 = 2 := by omega
  have e2 : (2 * 8 + f2) / 8 = 2 := by omega
  simp only [e1, e2]

/-- Witness for C2: with a table whose en-passant keys encode their indices,
the states with en-passant squares a3 (square 16) and b3 (square 17) — equal
except for the en-passant file — still hash identically. -/
theorem c2_partial_hash_ignores_en_passant_file_witness :
    State.partHash
        { Zobrist.zeroTable with epKey := fun i j => 100 * i + j }
        ⟨.Black, ⟨.NoRights, .NoRights⟩, some 16, 0, 1, 0⟩ =
      State.partHash
        { Zobrist.zeroTable with epKey := fun i j => 100 * i + j }
        ⟨.Black, ⟨.NoRights, .NoRights⟩, some 17, 0, 1, 0⟩ :=
  c2_partial_hash_ignores_en_passant_file _ _ _ _ _ _ 0 1 (by decide) (by decide)

end Chess

/-! ## Board, board hash and draw predicates (`movegen/src/board.rs`, `draw.rs`) -/

namespace Chess

/-- Source: `struct Board` — six piece-type bitboards, two color bitboards, the
current `State` and the history of previous `State`s.  The fixed-size arrays
are modelled as functions of the enum index. -/
structure Board where
  pieceTypesBitboards : PieceType → BitBoard
  colorBitboards : Color → BitBoard
  state : State
  history : List State

/-- Source: `Board::piece_bitboard` — intersection of the piece-type and color
bitboards. -/
def Board.pieceBitboard (b : Board) (p : Piece) : BitBoard :=
  b.pieceTypesBitboards p.pieceType &&& b.colorBitboards p.color

/-- Source: `Board::hash` — the state's partial hash XORed with the piece key
of every occupied square, iterating piece types, then colors, then the piece
bitboard. -/
def Board.hash (z : Zobrist) (b : Board) : Nat :=
  let pts : List PieceType := [.Pawn, .Knight, .Bishop, .Rook, .Queen, .King]
  let cols : List Color := [.White, .Black]
  pts.foldl
    (fun h pt =>
      cols.foldl
        (fun h c =>
          (bbList (b.pieceBitboard ⟨pt, c⟩)).foldl
            (fun h sq => h ^^^ z.pieceHash sq ⟨pt, c⟩) h)
        h)
    (State.partHash z b.state)

/-- The repetition scan of `Board::draw_by_repetition`: walk the history list
(already reversed, i.e. most recent first), stop at the first entry whose
halfmove clock is 0, count entries whose stored hash equals the current
board hash. -/
def repCount (hash : Nat) : List State → Nat
  | [] => 0
  | st :: rest =>
    if st.halfmoveClock = 0 then 0
    else (if st.hash = hash then 1 else 0) + repCount hash rest

/-- Source: `Board::draw_by_repetition` (`movegen/src/draw.rs` lines 143-159). -/
def Board.drawByRepetition (z : Zobrist) (b : Board) : Bool :=
  decide (2 ≤ repCount (Board.hash z b) b.history.reverse)

/-- One step of the square-color flag loops in `has_bishop_pair` and
`draw_by_insufficient_material`: the first component records that a bishop on
a white square was seen, the second a bishop on a black square. -/
def colorFlagStep (fl : Bool × Bool) (sq : Nat) : Bool × Bool :=
  if Square.color sq = Color.White then (true, fl.2) else (fl.1, true)

/-- One step of the counting loop in `has_bishop_pair`. -/
def colorCountStep (ct : Nat × Nat) (sq : Nat) : Nat × Nat :=
  if Square.color sq = Color.White then (ct.1 + 1, ct.2) else (ct.1, ct.2 + 1)

/-- Source: `Board::has_bishop_pair` — count the color's bishops standing on
white and on black squares; true iff both counts are at least 1. -/
def Board.hasBishopPair (b : Board) (c : Color) : Bool :=
  let counts := (bbList (b.pieceBitboard ⟨.Bishop, c⟩)).foldl colorCountStep (0, 0)
  decide (1 ≤ counts.1) && decide (1 ≤ counts.2)

/-- The early-return conditions of the per-color loop in
`draw_by_insufficient_material`, in source order: queens, rooks, pawns,
bishop pair, bishop-and-knight, three knights. -/
def Board.colorEarlyExit (b : Board) (c : Color) : Bool :=
  decide (0 < b.pieceBitboard ⟨.Queen, c⟩) ||
  decide (0 < b.pieceBitboard ⟨.Rook, c⟩) ||
  decide (0 < b.pieceBitboard ⟨.Pawn, c⟩) ||
  b.hasBishopPair c ||
  (decide (0 < b.pieceBitboard ⟨.Bishop, c⟩) &&
    decide (0 < b.pieceBitboard ⟨.Knight, c⟩)) ||
  decide (3 ≤ popcount (b.pieceBitboard ⟨.Knight, c⟩))

/-- Source: `Board::draw_by_insufficient_material` (`movegen/src/draw.rs`
lines 42-119), translated with the early `return false`s as an if-chain. -/
def Board.drawByInsufficientMaterial (b : Board) : Bool :=
  if b.colorEarlyExit .White then false
  else if b.colorEarlyExit .Black then false
  else
    let wBishops := b.pieceBitboard ⟨.Bishop, .White⟩
    let wKnights := b.pieceBitboard ⟨.Knight, .White⟩
    let bBishops := b.pieceBitboard ⟨.Bishop, .Black⟩
    let bKnights := b.pieceBitboard ⟨.Knight, .Black⟩
    let bishopsBothColors : Bool :=
      if popcount wBishops ≠ 0 && popcount bBishops ≠ 0 then
        let fl := (bbList bBishops).foldl colorFlagStep
          ((bbList wBishops).foldl colorFlagStep (false, false))
        fl.1 && fl.2
      else false
    if bishopsBothColors then false
    else if popcount wKnights ≠ 0 && popcount bKnights ≠ 0 then false
    else true

end Chess

/-! ## Claim C7: repetition monotonicity -/

namespace Chess

/-- Appending a state snapshot to a board's history. -/
def Board.appendHistory (b : Board) (st : State) : Board :=
  { b with history := b.history ++ [st] }

/-- The empty board used in the C7 counterexample: no pieces, default state,
and a history holding two copies of a reversible state whose stored hash (0)
matches the board hash under the all-zero Zobrist table. -/
def c7Board : Board :=
  { pieceTypesBitboards := fun _ => 0, colorBitboards := fun _ => 0,
    state := State.default,
    history := [{ State.default with halfmoveClock := 1 },
                { State.default with halfmoveClock := 1 }] }

/-- Claim C7, counterexample: `draw_by_repetition` is NOT monotone under
history appends.  On `c7Board` the predicate is true, but appending a state
snapshot whose halfmove clock is 0 (an irreversible move) makes the reverse
scan stop immediately, turning the predicate false. -/
theorem c7_repetition_not_monotone :
    Board.drawByRepetition Zobrist.zeroTable c7Board = true ∧
      Board.drawByRepetition Zobrist.zeroTable
        (c7Board.appendHistory State.default) = false := by
  constructor <;> decide

/-- Claim C7, amended: appending a history entry with a NONZERO halfmove
clock (a reversible move) never turns `draw_by_repetition` from true to
false; an entry with halfmove clock 0 may reset it, as the counterexample
shows. -/
theorem c7_repetition_monotone_reversible (z : Zobrist) (b : Board) (st : State)
    (hclock : st.halfmoveClock ≠ 0)
    (htrue : Board.drawByRepetition z b = true) :
    Board.drawByRepetition z (b.appendHistory st) = true := by
  have hhash : Board.hash z (b.appendHistory st) = Board.hash z b := rfl
  unfold Board.drawByRepetition at htrue ⊢
  rw [hhash]
  simp only [Board.appendHistory, List.reverse_append, List.reverse_cons,
    List.reverse_nil, List.nil_append, List.cons_append, List.singleton_append]
  simp only [decide_eq_true_eq] at htrue ⊢
  unfold repCount
  rw [if_neg hclock]
  omega

/-- Witness for the amended C7 theorem at a concrete reversible append. -/
theorem c7_repetition_monotone_reversible_witness :
    Board.drawByRepetition Zobrist.zeroTable
      (c7Board.appendHistory { State.default with halfmoveClock := 5 }) = true :=
  c7_repetition_monotone_reversible Zobrist.zeroTable c7Board
    { State.default with halfmoveClock := 5 } (by decide) (by decide)

end Chess

/-! ## Claim C8: insufficient material -/

namespace Chess

/-- Boolean test "this square is a white (light) square". -/
def isWhiteSquare (sq : Nat) : Bool := decide (Square.color sq = Color.White)

/-- Spec 4.8, per-side early conditions, in the spec's wording and order:
"False if any side has a pawn, rook, or queen, or has the bishop pair (one on
each square color), or has ≥ 3 knights, or has both a bishop and a knight." -/
def sideRulesOut (b : Board) (c : Color) : Bool :=
  decide (0 < b.pieceBitboard ⟨.Pawn, c⟩) ||
  decide (0 < b.pieceBitboard ⟨.Rook, c⟩) ||
  decide (0 < b.pieceBitboard ⟨.Queen, c⟩) ||
  ((bbList (b.pieceBitboard ⟨.Bishop, c⟩)).any isWhiteSquare &&
    (bbList (b.pieceBitboard ⟨.Bishop, c⟩)).any (fun sq => ! isWhiteSquare sq)) ||
  decide (3 ≤ popcount (b.pieceBitboard ⟨.Knight, c⟩)) ||
  (decide (0 < b.pieceBitboard ⟨.Bishop, c⟩) &&
    decide (0 < b.pieceBitboard ⟨.Knight, c⟩))

/-- Spec 4.8 insufficient-material decision procedure, stated from the spec's
words: the per-side conditions above; "otherwise, if both sides have at least
one bishop and the bishops occupy both light and dark squares across sides,
false; otherwise, if both sides have at least one knight, false; else true." -/
def insufficientMaterialSpec (b : Board) : Bool :=
  if sideRulesOut b .White || sideRulesOut b .Black then false
  else
    let wBishops := b.pieceBitboard ⟨.Bishop, .White⟩
    let bBishops := b.pieceBitboard ⟨.Bishop, .Black⟩
    let acrossSides := bbList wBishops ++ bbList bBishops
    if (popcount wBishops ≠ 0 && popcount bBishops ≠ 0) &&
        acrossSides.any isWhiteSquare &&
        acrossSides.any (fun sq => ! isWhiteSquare sq) then false
    else if popcount (b.pieceBitboard ⟨.Knight, .White⟩) ≠ 0 &&
        popcount (b.pieceBitboard ⟨.Knight, .Black⟩) ≠ 0 then false
    else true

theorem foldl_colorCountStep (l : List Nat) (ct : Nat × Nat) :
    l.foldl colorCountStep ct =
      (ct.1 + l.countP isWhiteSquare, ct.2 + l.countP (fun sq => ! isWhiteSquare sq)) := by
  induction l generalizing ct with
  | nil => simp
  | cons a l ih =>
    by_cases h : Square.color a = Color.White <;>
      simp [colorCountStep, List.countP_cons, ih, isWhiteSquare, h] <;> omega

theorem foldl_colorFlagStep (l : List Nat) (fl : Bool × Bool) :
    l.foldl colorFlagStep fl =
      (fl.1 || l.any isWhiteSquare, fl.2 || l.any (fun sq => ! isWhiteSquare sq)) := by
  induction l generalizing fl with
  | nil => simp
  | cons a l ih =>
    by_cases h : Square.color a = Color.White <;>
      simp [colorFlagStep, ih, isWhiteSquare, h, Bool.or_assoc]

theorem countP_ge_one_eq_any (l : List Nat) (p : Nat → Bool) :
    decide (1 ≤ l.countP p) = l.any p := by
  cases h : l.any p with
  | false =>
    have hz : l.countP p = 0 := by
      rw [List.countP_eq_zero]
      intro a ha
      have := List.any_eq_false.mp h a ha
      simpa using this
    simp [hz]
  | true =>
    rcases List.any_eq_true.mp h with ⟨a, ha, hpa⟩
    have hpos : 0 < l.countP p := List.countP_pos_iff.mpr ⟨a, ha, hpa⟩
    simpa using hpos

theorem hasBishopPair_eq_any (b : Board) (c : Color) :
    b.hasBishopPair c =
      ((bbList (b.pieceBitboard ⟨.Bishop, c⟩)).any isWhiteSquare &&
        (bbList (b.pieceBitboard ⟨.Bishop, c⟩)).any (fun sq => ! isWhiteSquare sq)) := by
  unfold Board.hasBishopPair
  rw [foldl_colorCountStep]
  simp only [Nat.zero_add]
  rw [countP_ge_one_eq_any, countP_ge_one_eq_any]

theorem colorEarlyExit_eq_sideRulesOut (b : Board) (c : Color) :
    b.colorEarlyExit c = sideRulesOut b c := by
  unfold Board.colorEarlyExit sideRulesOut
  rw [hasBishopPair_eq_any]
  generalize decide (0 < b.pieceBitboard ⟨.Queen, c⟩) = q
  generalize decide (0 < b.pieceBitboard ⟨.Rook, c⟩) = r
  generalize decide (0 < b.pieceBitboard ⟨.Pawn, c⟩) = p
  generalize ((bbList (b.pieceBitboard ⟨.Bishop, c⟩)).any isWhiteSquare &&
    (bbList (b.pieceBitboard ⟨.Bishop, c⟩)).any fun sq => ! isWhiteSquare sq) = pair
  generalize (decide (0 < b.pieceBitboard ⟨.Bishop, c⟩) &&
    decide (0 < b.pieceBitboard ⟨.Knight, c⟩)) = bn
  generalize decide (3 ≤ popcount (b.pieceBitboard ⟨.Knight, c⟩)) = k3
  revert q r p pair bn k3
  decide

/-- Claim C8: `draw_by_insufficient_material` computes exactly the spec's
decision procedure, for every board. -/
theorem c8_insufficient_material_correct (b : Board) :
    b.drawByInsufficientMaterial = insufficientMaterialSpec b := by
  unfold Board.drawByInsufficientMaterial insufficientMaterialSpec
  rw [colorEarlyExit_eq_sideRulesOut, colorEarlyExit_eq_sideRulesOut]
  cases hw : sideRulesOut b .White with
  | true => simp
  | false =>
    cases hb : sideRulesOut b .Black with
    | true => simp
    | false =>
      simp only [Bool.false_or, Bool.false_eq_true, if_false]
      rw [foldl_colorFlagStep, foldl_colorFlagStep]
      simp only [Bool.false_or, List.any_append]
      cases hg : (popcount (b.pieceBitboard ⟨.Bishop, .White⟩) ≠ 0 &&
          popcount (b.pieceBitboard ⟨.Bishop, .Black⟩) ≠ 0 : Bool) <;>
        simp [hg, Bool.and_assoc]

end Chess

/-! ## FEN codec (`movegen/src/fen.rs`, `movegen/src/castle_rights.rs`)

Characters are modelled by their ASCII/Unicode scalar values (`Nat`); a Rust
string is a list of such codes.  All inputs relevant to the claims are ASCII.
-/

namespace Chess

/-- Codes of characters as used by the FEN grammar. -/
def chars (s : String) : List Nat := s.toList.map Char.toNat

/-- Rust `char::to_digit(10)`: the value of an ASCII decimal digit. -/
def chDigit (c : Nat) : Option Nat :=
  if 48 ≤ c ∧ c ≤ 57 then some (c - 48) else none

/-- Rust `char::to_lowercase` restricted to ASCII (all inputs of interest):
maps `A`-`Z` to `a`-`z` and leaves everything else unchanged. -/
def asciiToLower (c : Nat) : Nat := if 65 ≤ c ∧ c ≤ 90 then c + 32 else c

/-- Whitespace as recognized by Rust `str::split_whitespace` (ASCII part). -/
def isWsCh (c : Nat) : Bool :=
  c = 32 || c = 9 || c = 10 || c = 11 || c = 12 || c = 13

/-- Source: `SquareError` (`core/square.rs`). -/
inductive SquareError where
  | Length (n : Nat)
  | RankErr (s : List Nat)
  | FileErr (s : List Nat)
deriving DecidableEq, Repr

/-- Source: `enum FenError` (`movegen/src/fen.rs`). -/
inductive FenError where
  | Sections (n : Nat)
  | Ranks (n : Nat)
  | Files (n : Nat)
  | PieceErr (s : List Nat)
  | PawnOnFirstOrLastRank
  | ToManyPawns (c : Color) (n : Nat)
  | ToManyPieces (c : Color) (n : Nat)
  | ColorErr (s : List Nat)
  | CastleErr (s : List Nat)
  | EnPassantSquareErr (e : SquareError)
  | EnPassantRank (r : Nat)
  | HalfmoveClock
  | FullmoveCounter
deriving DecidableEq, Repr

/-- Outcome of a Rust computation that can also abort: `ok` and `err` are the
two sides of `Result`, `panicked` models a reached `unreachable!`/failed
assertion. -/
inductive PRes (α : Type) where
  | ok (a : α)
  | err (e : FenError)
  | panicked
deriving DecidableEq, Repr

/-- `?`-propagation for `PRes`. -/
def PRes.bind {α β : Type} : PRes α → (α → PRes β) → PRes β
  | .ok a, f => f a
  | .err e, _ => .err e
  | .panicked, _ => .panicked

instance : Monad PRes where
  pure := PRes.ok
  bind := PRes.bind

/-- Lift a plain `Result` into `PRes`. -/
def liftE {α : Type} : Except FenError α → PRes α
  | .ok a => .ok a
  | .error e => .err e

/-- Source: `PieceType::from_str` on a single-character string
(`enum_str!` table: p n b r q k). -/
def pieceTypeFromChar (c : Nat) : Except (List Nat) PieceType :=
  if c = 112 then .ok .Pawn
  else if c = 110 then .ok .Knight
  else if c = 98 then .ok .Bishop
  else if c = 114 then .ok .Rook
  else if c = 113 then .ok .Queen
  else if c = 107 then .ok .King
  else .error [c]

/-- Source: `Piece::from_str` on a single-character string: lowercase the
text, parse the piece type, pick Black when the text was already lowercase. -/
def pieceFromChar (c : Nat) : Except (List Nat) Piece :=
  let lower := asciiToLower c
  match pieceTypeFromChar lower with
  | .error e => .error e
  | .ok pt => if c = lower then .ok ⟨pt, .Black⟩ else .ok ⟨pt, .White⟩

/-- Source: `impl Display for Piece` composed with the `PieceType` string
table: lowercase letter code, uppercased (-32) for White. -/
def pieceChar (p : Piece) : Nat :=
  let base : Nat :=
    match p.pieceType with
    | .Pawn => 112
    | .Knight => 110
    | .Bishop => 98
    | .Rook => 114
    | .Queen => 113
    | .King => 107
  match p.color with
  | .White => base - 32
  | .Black => base

/-- Source: `CastleRightsType::from_str` (`enum_str!` table "", "k", "q",
"kq"). -/
def castleTypeFromChars (s : List Nat) : Except (List Nat) CastleRightsType :=
  if s = [] then .ok .NoRights
  else if s = [107] then .ok .KingSide
  else if s = [113] then .ok .QueenSide
  else if s = [107, 113] then .ok .Both
  else .error s

/-- Source: `CastleRightsType::try_bitor_assign` — bitwise OR of the
discriminants, in-lattice check. -/
def tryBitorAssign (a b : CastleRightsType) : Except (List Nat) CastleRightsType :=
  let v := a.toIdx ||| b.toIdx
  if v < 4 then .ok (CastleRightsType.ofIdx v) else .error []

/-- The character loop of `CastleRights::from_str`. -/
def castleRightsLoop : List Nat → CastleRights → Except (List Nat) CastleRights
  | [], cr => .ok cr
  | c :: rest, cr =>
    let lower := asciiToLower c
    match castleTypeFromChars [lower] with
    | .error e => .error e
    | .ok t =>
      if lower = c then
        match tryBitorAssign (cr.get .Black) t with
        | .error e => .error e
        | .ok t' => castleRightsLoop rest { cr with black := t' }
      else
        match tryBitorAssign (cr.get .White) t with
        | .error e => .error e
        | .ok t' => castleRightsLoop rest { cr with white := t' }

/-- Source: `impl FromStr for CastleRights` (`movegen/src/castle_rights.rs`
lines 32-60): length must be 1..=4, "-" alone means no rights, otherwise each
character is lowercased, parsed as a `CastleRightsType` and ORed into the
color picked by the original case. -/
def castleRightsFromStr (s : List Nat) : Except (List Nat) CastleRights :=
  if 4 < s.length ∨ s.length = 0 then .error s
  else if s = [45] then .ok ⟨.NoRights, .NoRights⟩
  else castleRightsLoop s ⟨.NoRights, .NoRights⟩

/-- Source: `impl Display for CastleRights`: White's `CastleRightsType`
string uppercased, then Black's lowercase; "-" when both empty. -/
def castleTypeChars : CastleRightsType → List Nat
  | .NoRights => []
  | .KingSide => [107]
  | .QueenSide => [113]
  | .Both => [107, 113]

/-- Formatting of `CastleRights` (see `castleTypeChars`). -/
def castleRightsChars (cr : CastleRights) : List Nat :=
  let s := (castleTypeChars cr.white).map (fun c => c - 32) ++ castleTypeChars cr.black
  if s = [] then [45] else s

/-- Source: `Color::from_str` ("w" / "b"). -/
def colorFromChars (s : List Nat) : Except (List Nat) Color :=
  if s = [119] then .ok .White
  else if s = [98] then .ok .Black
  else .error s

/-- Source: `impl Display for Color`. -/
def colorChars : Color → List Nat
  | .White => [119]
  | .Black => [98]

/-- Source: `Square::from_str` — exactly two characters, a file letter
`a`-`h` and a rank digit `1`-`8`. -/
def squareFromChars (s : List Nat) : Except SquareError Nat :=
  match s with
  | [f, r] =>
    if 97 ≤ f ∧ f ≤ 104 then
      if 49 ≤ r ∧ r ≤ 56 then .ok (Square.withFileRank (f - 97) (r - 49))
      else .error (.RankErr [r])
    else .error (.FileErr [f])
  | _ => .error (.Length s.length)

/-- Source: `impl Display for Square` — file letter then rank digit. -/
def squareChars (sq : Nat) : List Nat :=
  [97 + Square.file sq, 49 + Square.rank sq]

/-- Digit run of `u16::to_string` and friends (most significant first); the
structural bound `fuel` only needs `n < 10^fuel`, guaranteed at the wrapper. -/
def natToCharsAux : Nat → Nat → List Nat
  | 0, _ => []
  | fuel + 1, n =>
    if n < 10 then [48 + n]
    else natToCharsAux fuel (n / 10) ++ [48 + n % 10]

/-- Decimal formatting of an unsigned integer (`to_string`). -/
def natToChars (n : Nat) : List Nat := natToCharsAux (n + 1) n

/-- Digit-folding core of Rust's unsigned `from_str`. -/
def goDigits : List Nat → Nat → Option Nat
  | [], acc => some acc
  | c :: rest, acc =>
    match chDigit c with
    | some d => goDigits rest (10 * acc + d)
    | none => none

/-- Rust `u8/u16::from_str`: optional leading `+`, at least one digit, all
digits, and the value must fit below the bound (`bound` is 255 or 65535). -/
def parseUnsigned (bound : Nat) (s : List Nat) : Option Nat :=
  let core : List Nat → Option Nat := fun l =>
    match l with
    | [] => none
    | _ =>
      match goDigits l 0 with
      | some v => if v ≤ bound then some v else none
      | none => none
  match s with
  | 43 :: rest => core rest
  | _ => core s

/-- Split a rank section on `/` (Rust `str::split('/')`, keeping empties). -/
def splitOnSlash : List Nat → List (List Nat)
  | [] => [[]]
  | c :: rest =>
    if c = 47 then [] :: splitOnSlash rest
    else
      match splitOnSlash rest with
      | [] => [[c]]
      | t :: ts => (c :: t) :: ts

/-- Worker of `splitWs` with the current (reversed) token accumulator. -/
def splitWsGo : List Nat → List Nat → List (List Nat)
  | [], cur => if cur = [] then [] else [cur.reverse]
  | c :: rest, cur =>
    if isWsCh c then
      if cur = [] then splitWsGo rest []
      else cur.reverse :: splitWsGo rest []
    else splitWsGo rest (c :: cur)

/-- Rust `str::split_whitespace().collect()` (used by `split_fen_string`). -/
def splitWs (s : List Nat) : List (List Nat) := splitWsGo s []

/-- Piece/pawn counters threaded through `piece_placement`. -/
structure PlacementCounts where
  whitePawns : Nat
  blackPawns : Nat
  whitePieces : Nat
  blackPieces : Nat
deriving DecidableEq, Repr

/-- The zero counters. -/
def PlacementCounts.zero : PlacementCounts := ⟨0, 0, 0, 0⟩

/-- Reading a square of the pieces array (`pieces[square]`). -/
def pieceAt (pieces : List (Option Piece)) (j : Nat) : Option Piece :=
  (pieces.getD j none)

/-- The character loop of `piece_placement` for one rank string.  Mirrors the
source order: digits advance `file_index`; a letter is parsed as a piece, the
color counter is bumped, a pawn on rank index 0 or 7 is an error, the pawn
counter is bumped, and the piece is stored at `rank_index*8 + file_index` —
where `File::new(file_index)` PANICS (`unreachable!`) if `file_index ≥ 8`. -/
def placeRank (rankIdx : Nat) :
    List Nat → Nat → List (Option Piece) → PlacementCounts →
      PRes (List (Option Piece) × PlacementCounts)
  | [], fileIdx, pieces, cts =>
    if fileIdx = 8 then .ok (pieces, cts) else .err (.Files fileIdx)
  | c :: rest, fileIdx, pieces, cts =>
    match chDigit c with
    | some d => placeRank rankIdx rest (fileIdx + d) pieces cts
    | none =>
      match pieceFromChar c with
      | .error e => .err (.PieceErr e)
      | .ok piece =>
        let cts :=
          if piece.color = Color.White then { cts with whitePieces := cts.whitePieces + 1 }
          else { cts with blackPieces := cts.blackPieces + 1 }
        if piece.pieceType = PieceType.Pawn then
          if rankIdx = 0 ∨ rankIdx = 7 then .err .PawnOnFirstOrLastRank
          else
            let cts :=
              if piece.color = Color.White then { cts with whitePawns := cts.whitePawns + 1 }
              else { cts with blackPawns := cts.blackPawns + 1 }
            if 8 ≤ fileIdx then .panicked
            else placeRank rankIdx rest (fileIdx + 1)
              (pieces.set (Square.withFileRank fileIdx rankIdx) (some piece)) cts
        else
          if 8 ≤ fileIdx then .panicked
          else placeRank rankIdx rest (fileIdx + 1)
            (pieces.set (Square.withFileRank fileIdx rankIdx) (some piece)) cts

/-- The rank loop of `piece_placement` (`ranks.iter().rev().enumerate()`:
the caller passes the reversed rank list and `rankIdx = 0`). -/
def placeRanks :
    Nat → List (List Nat) → List (Option Piece) → PlacementCounts →
      PRes (List (Option Piece) × PlacementCounts)
  | _, [], pieces, cts => .ok (pieces, cts)
  | rankIdx, r :: rest, pieces, cts =>
    match placeRank rankIdx r 0 pieces cts with
    | .ok (pieces', cts') => placeRanks (rankIdx + 1) rest pieces' cts'
    | .err e => .err e
    | .panicked => .panicked

/-- Source: `piece_placement` (`movegen/src/fen.rs` lines 199-279). -/
def piecePlacement (s : List Nat) : PRes (List (Option Piece)) :=
  let ranks := splitOnSlash s
  if ranks.length ≠ 8 then .err (.Ranks ranks.length)
  else
    match placeRanks 0 ranks.reverse (List.replicate 64 none) PlacementCounts.zero with
    | .ok (pieces, cts) =>
      if 16 < cts.whitePieces then .err (.ToManyPieces .White cts.whitePieces)
      else if 16 < cts.blackPieces then .err (.ToManyPieces .Black cts.blackPieces)
      else if 8 < cts.whitePawns then .err (.ToManyPawns .White cts.whitePawns)
      else if 8 < cts.blackPawns then .err (.ToManyPawns .Black cts.blackPawns)
      else .ok pieces
    | .err e => .err e
    | .panicked => .panicked

/-- Source: `struct BoardBuilder { pieces, state }` restricted to what the
FEN codec reads and writes.  The builder's `State` always carries hash 0 (no
builder method touches it), so the hash field is omitted here. -/
structure BoardBuilder where
  pieces : List (Option Piece)
  color : Color
  castlingRights : CastleRights
  epSquare : Option Nat
  halfmoveClock : Nat
  fullmoveCounter : Nat
deriving DecidableEq, Repr

/-- The en-passant field handling of `BoardBuilder::from_str`: "-" means no
square; otherwise parse the square and require rank Three or Six. -/
def parseEpField (s : List Nat) : Except FenError (Option Nat) :=
  if s = [45] then .ok none
  else
    match squareFromChars s with
    | .error e => .error (.EnPassantSquareErr e)
    | .ok sq =>
      if Square.rank sq ≠ 2 ∧ Square.rank sq ≠ 5 then .error (.EnPassantRank (Square.rank sq))
      else .ok (some sq)

/-- The halfmove-clock field handling: parse as `u8`, reject values above
`State::MAX_HALFMOVE_CLOCK` (100); an absent field means 0. -/
def parseHalfmoveField (rest : List (List Nat)) : PRes Nat :=
  match rest with
  | [] => .ok 0
  | h :: _ =>
    match parseUnsigned 255 h with
    | none => .err .HalfmoveClock
    | some v => if 100 < v then .err .HalfmoveClock else .ok v

/-- The fullmove-counter field handling: present only in a six-field FEN;
parse as `u16`, reject 0, and reject `halfmove as u16 > fullmove * 2` (the
`u16` product wraps, hence the `% 2^16`).  An absent field means 1 — with NO
halfmove/fullmove comparison. -/
def parseFullmoveField (hm : Nat) (rest : List (List Nat)) : PRes Nat :=
  match rest with
  | [_, fmS] =>
    match parseUnsigned 65535 fmS with
    | none => .err .FullmoveCounter
    | some v =>
      if v = 0 then .err .FullmoveCounter
      else if (v * 2) % 65536 < hm then .err .HalfmoveClock
      else .ok v
  | _ => .ok 1

/-- Source: `impl FromStr for BoardBuilder` (`movegen/src/fen.rs` lines
112-179): split on whitespace, require 4-6 sections, then parse placement,
color, castling rights, en passant, halfmove clock and fullmove counter. -/
def boardFromFen (s : List Nat) : PRes BoardBuilder :=
  let fields := splitWs s
  if fields.length < 4 ∨ 6 < fields.length then .err (.Sections fields.length)
  else
    match fields with
    | f0 :: f1 :: f2 :: f3 :: rest =>
      PRes.bind (piecePlacement f0) fun pieces =>
      PRes.bind (liftE ((colorFromChars f1).mapError .ColorErr)) fun color =>
      PRes.bind (liftE ((castleRightsFromStr f2).mapError .CastleErr)) fun cr =>
      PRes.bind (liftE (parseEpField f3)) fun ep =>
      PRes.bind (parseHalfmoveField rest) fun hm =>
      PRes.bind (parseFullmoveField hm rest) fun fm =>
      .ok ⟨pieces, color, cr, ep, hm, fm⟩
    | _ => .panicked

/-- The 8-square slice of the pieces array read by the formatter for one
rank (`pieces[rank*8 + file]` for `file = 0..8`). -/
def rowOf (pieces : List (Option Piece)) (r : Nat) : List (Option Piece) :=
  (pieces.drop (8 * r)).take 8

/-- The file loop of `impl Display for BoardBuilder` over one rank: emit the
pending empty-run digit before each piece letter and at the end of the rank. -/
def formatRankAux : List (Option Piece) → Nat → List Nat
  | [], e => if 0 < e then natToChars e else []
  | none :: row, e => formatRankAux row (e + 1)
  | some p :: row, e =>
    (if 0 < e then natToChars e else []) ++ pieceChar p :: formatRankAux row 0

/-- Join with `/` separators (the formatter pushes `/` after every rank but
the last). -/
def joinSlash : List (List Nat) → List Nat
  | [] => []
  | [x] => x
  | x :: xs => x ++ 47 :: joinSlash xs

/-- Join with single spaces (the `"{} {} {} {} {} {}"` format string). -/
def joinSp : List (List Nat) → List Nat
  | [] => []
  | [x] => x
  | x :: xs => x ++ 32 :: joinSp xs

/-- The piece-placement part of `impl Display for BoardBuilder`: ranks from
8 down to 1. -/
def formatPlacement (pieces : List (Option Piece)) : List Nat :=
  joinSlash (((List.range 8).reverse).map (fun r => formatRankAux (rowOf pieces r) 0))

/-- The en-passant field of the formatter: `-` or the square's algebraic
name. -/
def epChars : Option Nat → List Nat
  | none => [45]
  | some sq => squareChars sq

/-- Source: `impl Display for BoardBuilder` — the full six-field FEN
string. -/
def formatFen (b : BoardBuilder) : List Nat :=
  joinSp [formatPlacement b.pieces, colorChars b.color,
    castleRightsChars b.castlingRights, epChars b.epSquare,
    natToChars b.halfmoveClock, natToChars b.fullmoveCounter]

end Chess

/-! ## Supporting lemmas for parser inversion -/

namespace Chess

theorem PRes.bind_ok_iff {α β : Type} {x : PRes α} {f : α → PRes β} {b : β} :
    PRes.bind x f = .ok b ↔ ∃ a, x = .ok a ∧ f a = .ok b := by
  cases x <;> simp [PRes.bind]

theorem liftE_ok {α : Type} {x : Except FenError α} {a : α} :
    liftE x = .ok a ↔ x = .ok a := by
  cases x <;> simp [liftE]

theorem parseEpField_ok_some {s : List Nat} {sq : Nat}
    (h : parseEpField s = .ok (some sq)) :
    Square.rank sq = 2 ∨ Square.rank sq = 5 := by
  unfold parseEpField at h
  split at h
  · simp at h
  · split at h
    · simp at h
    · rename_i sq' _
      split at h
      · simp at h
      · rename_i hcond
        simp at h
        rcases h with rfl
        omega

end Chess

/-! ## Claim C5: FEN parsing can abort instead of reporting a file-count error -/

namespace Chess

/-- Claim C5 (code behaviour at the failing input): the rank string
`rrrrrrrrr` describes nine files; when the ninth rook is placed the parser
calls `File::new(8)`, whose `unreachable!` branch panics, so FEN parsing
ABORTS instead of returning the wrong-file-count error `FenError::Files(9)`
that the claim promises. -/
theorem c5_nine_file_rank_panics :
    boardFromFen (chars "rrrrrrrrr/8/8/8/8/8/8/8 w - - 0 1") = PRes.panicked := by
  decide

end Chess

/-! ## Claim C6: en-passant rank invariant established by the parser -/

namespace Chess

/-- Claim C6, counterexample: the parser accepts an en-passant square on
rank Three with WHITE to move (`... w - e3 ...`), violating the claimed
invariant "rank Three exactly when the side to move is Black". -/
theorem c6_white_with_rank_three_ep_accepted :
    boardFromFen (chars "8/8/8/8/8/8/8/8 w - e3 0 1") =
      PRes.ok ⟨List.replicate 64 none, .White, ⟨.NoRights, .NoRights⟩, some 20, 0, 1⟩ := by
  decide

/-- Claim C6, amended: every board accepted by the FEN parser has its
en-passant square (when set) on rank Three or rank Six; the correlation with
the side to move is NOT checked. -/
theorem c6_parser_ep_rank_three_or_six (s : List Nat) (b : BoardBuilder)
    (h : boardFromFen s = .ok b) (sq : Nat) (hep : b.epSquare = some sq) :
    Square.rank sq = 2 ∨ Square.rank sq = 5 := by
  simp only [boardFromFen] at h
  split at h
  · simp at h
  · split at h
    · rcases PRes.bind_ok_iff.mp h with ⟨pieces, _, h⟩
      rcases PRes.bind_ok_iff.mp h with ⟨col, _, h⟩
      rcases PRes.bind_ok_iff.mp h with ⟨cr, _, h⟩
      rcases PRes.bind_ok_iff.mp h with ⟨ep, hepOk, h⟩
      rcases PRes.bind_ok_iff.mp h with ⟨hmv, _, h⟩
      rcases PRes.bind_ok_iff.mp h with ⟨fmv, _, h⟩
      cases h
      have hEp := liftE_ok.mp hepOk
      simp only [BoardBuilder.epSquare] at hep
      subst hep
      exact parseEpField_ok_some hEp
    · simp at h

/-- Witness for the amended C6 theorem at a concrete accepted FEN. -/
theorem c6_parser_ep_rank_three_or_six_witness :
    Square.rank 42 = 2 ∨ Square.rank 42 = 5 :=
  c6_parser_ep_rank_three_or_six (chars "8/8/8/8/8/8/8/8 b - c6 0 1")
    ⟨List.replicate 64 none, .Black, ⟨.NoRights, .NoRights⟩, some 42, 0, 1⟩
    (by decide) 42 rfl

end Chess

/-! ## Claim C10: castling-rights field parsing -/

namespace Chess

theorem tryBitorAssign_ok (a b : CastleRightsType) :
    tryBitorAssign a b = .ok (CastleRightsType.ofIdx (a.toIdx ||| b.toIdx)) := by
  cases a <;> cases b <;> rfl

theorem asciiToLower_eq_107 (c : Nat) : (asciiToLower c = 107) ↔ (c = 107 ∨ c = 75) := by
  unfold asciiToLower
  split <;> omega

theorem asciiToLower_eq_113 (c : Nat) : (asciiToLower c = 113) ↔ (c = 113 ∨ c = 81) := by
  unfold asciiToLower
  split <;> omega

/-- The castling character class accepted by the loop. -/
def isCastleChar (c : Nat) : Bool :=
  decide (c = 75) || decide (c = 81) || decide (c = 107) || decide (c = 113)

theorem castleRightsLoop_isOk (s : List Nat) (cr : CastleRights) :
    (castleRightsLoop s cr).isOk = s.all isCastleChar := by
  induction s generalizing cr with
  | nil => rfl
  | cons c rest ih =>
    simp only [castleRightsLoop]
    by_cases hc : asciiToLower c = 107 ∨ asciiToLower c = 113
    · have hclass : isCastleChar c = true := by
        rcases hc with h | h
        · rcases (asciiToLower_eq_107 c).mp h with rfl | rfl <;> rfl
        · rcases (asciiToLower_eq_113 c).mp h with rfl | rfl <;> rfl
      have hok : ∃ t, castleTypeFromChars [asciiToLower c] = .ok t := by
        rcases hc with h | h <;> rw [h] <;> exact ⟨_, rfl⟩
      rcases hok with ⟨t, ht⟩
      rw [ht]
      by_cases hlo : asciiToLower c = c <;>
        simp [hlo, tryBitorAssign_ok, ih, List.all_cons, hclass]
    · push_neg at hc
      rcases hc with ⟨h7, h3⟩
      have n75 : c ≠ 75 := fun h => h7 (by subst h; decide)
      have n81 : c ≠ 81 := fun h => h3 (by subst h; decide)
      have n107 : c ≠ 107 := fun h => h7 (by subst h; decide)
      have n113 : c ≠ 113 := fun h => h3 (by subst h; decide)
      have hclass : isCastleChar c = false := by
        simp [isCastleChar, n75, n81, n107, n113]
      have herr : castleTypeFromChars [asciiToLower c] = .error [asciiToLower c] := by
        unfold castleTypeFromChars
        simp [h7, h3]
      rw [herr]
      simp [List.all_cons, hclass, Except.isOk, Except.toBool]

/-- Claim C10, counterexample: the string `qK` — the letters out of the
canonical K,Q,k,q order — is ACCEPTED by the castling-rights parser (yielding
white king-side plus black queen-side rights), while the claim says every
string other than "-" and canonical-order subsets is an error. -/
theorem c10_out_of_order_accepted :
    castleRightsFromStr (chars "qK") = .ok ⟨.KingSide, .QueenSide⟩ := rfl

/-- Claim C10, amended: the castling-rights field parser accepts exactly the
string "-" and the strings of length 1..=4 over the alphabet {K,Q,k,q} — in
ANY order, duplicates allowed (the in-lattice OR never fails) — and returns
an error for every other string, including "-" mixed with letters. -/
theorem c10_castle_rights_acceptance (s : List Nat) :
    (castleRightsFromStr s).isOk =
      (decide (s = [45]) ||
        (decide (s.length ≤ 4) && !(s.isEmpty) && s.all isCastleChar)) := by
  unfold castleRightsFromStr
  by_cases hlen : 4 < s.length ∨ s.length = 0
  · rw [if_pos hlen]
    have h45 : s ≠ [45] := by
      intro h
      subst h
      simp at hlen
    rcases hlen with h | h
    · have h4 : decide (s.length ≤ 4) = false := by
        simp only [decide_eq_false_iff_not]
        omega
      simp [h45, Except.isOk, Except.toBool, h4]
    · have hs : s = [] := List.length_eq_zero.mp h
      subst hs
      simp [Except.isOk, Except.toBool]
  · rw [if_neg hlen]
    push_neg at hlen
    by_cases h45 : s = [45]
    · simp [h45, Except.isOk, Except.toBool]
    · rw [if_neg h45]
      rw [castleRightsLoop_isOk]
      have hne : s.isEmpty = false := by
        rcases s with _ | ⟨c, rest⟩
        · simp at hlen
        · rfl
      have h4 : decide (s.length ≤ 4) = true := by
        simp only [decide_eq_true_eq]
        omega
      simp [h45, hne, h4]

end Chess

/-! ## Decimal formatting and whitespace-splitting lemmas -/

namespace Chess

theorem natToCharsAux_mem {fuel n : Nat} (h : n < 10 ^ fuel) :
    ∀ c ∈ natToCharsAux fuel n, 48 ≤ c ∧ c ≤ 57 := by
  induction fuel generalizing n with
  | zero => simp at h; subst h; simp [natToCharsAux]
  | succ fuel ih =>
    unfold natToCharsAux
    split
    · rename_i hlt
      intro c hc
      simp at hc
      omega
    · rename_i hge
      intro c hc
      rw [List.mem_append] at hc
      have hdiv : n / 10 < 10 ^ fuel := by
        rw [pow_succ] at h
        exact Nat.div_lt_of_lt_mul (by omega)
      rcases hc with hc | hc
      · exact ih hdiv c hc
      · simp at hc
        have := Nat.mod_lt n (y := 10) (by omega)
        omega

theorem natToCharsAux_ne_nil {fuel n : Nat} (h : 0 < fuel) :
    natToCharsAux fuel n ≠ [] := by
  cases fuel with
  | zero => omega
  | succ fuel =>
    unfold natToCharsAux
    split
    · simp
    · simp

theorem natToChars_mem {n : Nat} : ∀ c ∈ natToChars n, 48 ≤ c ∧ c ≤ 57 := by
  have hlt : n < 10 ^ (n + 1) := by
    calc n < n + 1 := by omega
    _ ≤ 10 ^ (n + 1) := Nat.le_of_lt (Nat.lt_pow_self (by omega) _)
  exact natToCharsAux_mem hlt

theorem natToChars_ne_nil {n : Nat} : natToChars n ≠ [] :=
  natToCharsAux_ne_nil (by omega)

theorem goDigits_append (l1 l2 : List Nat) (acc : Nat) :
    goDigits (l1 ++ l2) acc =
      match goDigits l1 acc with
      | some a => goDigits l2 a
      | none => none := by
  induction l1 generalizing acc with
  | nil => simp [goDigits]
  | cons c cs ih =>
    simp only [List.cons_append, goDigits]
    cases chDigit c with
    | none => simp
    | some d => simp [ih]

theorem goDigits_natToCharsAux {fuel n : Nat} (h : n < 10 ^ fuel) (acc : Nat) :
    goDigits (natToCharsAux fuel n) acc =
      some (acc * 10 ^ (natToCharsAux fuel n).length + n) := by
  induction fuel generalizing n acc with
  | zero =>
    simp at h
    subst h
    simp [natToCharsAux, goDigits]
  | succ fuel ih =>
    unfold natToCharsAux
    split
    · rename_i hlt
      have hd : chDigit (48 + n) = some n := by
        unfold chDigit
        rw [if_pos (by omega)]
        congr 1
        omega
      simp [goDigits, hd]
      omega
    · rename_i hge
      push_neg at hge
      have hdiv : n / 10 < 10 ^ fuel := by
        rw [pow_succ] at h
        exact Nat.div_lt_of_lt_mul (by omega)
      rw [goDigits_append, ih hdiv]
      have hd : chDigit (48 + n % 10) = some (n % 10) := by
        unfold chDigit
        rw [if_pos (by have := Nat.mod_lt n (y := 10) (by omega); omega)]
        congr 1
        omega
      simp only [goDigits, hd]
      simp only [List.length_append, List.length_cons, List.length_nil]
      congr 1
      rw [pow_succ, ← Nat.mul_assoc]
      omega

theorem goDigits_natToChars (n acc : Nat) :
    goDigits (natToChars n) acc =
      some (acc * 10 ^ (natToChars n).length + n) := by
  have hlt : n < 10 ^ (n + 1) := by
    calc n < n + 1 := by omega
    _ ≤ 10 ^ (n + 1) := Nat.le_of_lt (Nat.lt_pow_self (by omega) _)
  exact goDigits_natToCharsAux hlt acc

theorem parseUnsigned_natToChars (bound n : Nat) :
    parseUnsigned bound (natToChars n) = if n ≤ bound then some n else none := by
  have hmem := @natToChars_mem n
  have hne := @natToChars_ne_nil n
  have hgo := goDigits_natToChars n 0
  simp only [Nat.zero_mul, Nat.zero_add] at hgo
  rcases hcs : natToChars n with _ | ⟨c, cs⟩
  · exact absurd hcs hne
  · have hc := hmem c (by rw [hcs]; exact List.mem_cons_self _ _)
    rw [hcs] at hgo
    have h43 : c ≠ 43 := by omega
    have hstep : parseUnsigned bound (c :: cs) =
        (match goDigits (c :: cs) 0 with
         | some v => if v ≤ bound then some v else none
         | none => none) := by
      unfold parseUnsigned
      split
      · rename_i rest heq
        injection heq with h1 _
        exact absurd h1 h43
      · rfl
    rw [hstep, hgo]

end Chess

namespace Chess

theorem splitWsGo_token (t : List Nat) (hts : ∀ c ∈ t, isWsCh c = false) :
    ∀ rest cur, splitWsGo (t ++ rest) cur = splitWsGo rest (t.reverse ++ cur) := by
  induction t with
  | nil => intro rest cur; simp
  | cons c ts ih =>
    intro rest cur
    have hc : isWsCh c = false := hts c (List.mem_cons_self _ _)
    simp only [List.cons_append, splitWsGo, hc, Bool.false_eq_true, if_false,
      List.append_eq]
    rw [ih (fun x hx => hts x (List.mem_cons_of_mem _ hx)) rest (c :: cur)]
    simp

theorem splitWs_joinSp (fs : List (List Nat)) (hne : ∀ f ∈ fs, f ≠ [])
    (hws : ∀ f ∈ fs, ∀ c ∈ f, isWsCh c = false) :
    splitWs (joinSp fs) = fs := by
  induction fs with
  | nil => rfl
  | cons f fs ih =>
    have hf : f ≠ [] := hne f (List.mem_cons_self _ _)
    have hfws : ∀ c ∈ f, isWsCh c = false := hws f (List.mem_cons_self _ _)
    cases fs with
    | nil =>
      show splitWsGo (joinSp [f]) [] = [f]
      have : joinSp [f] = f ++ [] := by simp [joinSp]
      rw [this, splitWsGo_token f hfws [] []]
      simp only [splitWsGo]
      rw [if_neg (by simpa using hf)]
      simp
    | cons g gs =>
      show splitWsGo (joinSp (f :: g :: gs)) [] = f :: g :: gs
      have : joinSp (f :: g :: gs) = f ++ 32 :: joinSp (g :: gs) := by
        simp [joinSp]
      rw [this, splitWsGo_token f hfws _ []]
      simp only [splitWsGo, isWsCh]
      rw [if_pos (by norm_num)]
      rw [if_neg (by simpa using hf)]
      simp only [List.append_nil, List.reverse_reverse]
      congr 1
      exact ih (fun x hx => hne x (List.mem_cons_of_mem _ hx))
        (fun x hx => hws x (List.mem_cons_of_mem _ hx))

theorem digits_not_ws {c : Nat} (h : 48 ≤ c ∧ c ≤ 57) : isWsCh c = false := by
  unfold isWsCh
  simp only [Bool.or_eq_false_iff, decide_eq_false_iff_not]
  omega

end Chess

/-! ## Claim C9: halfmove/fullmove validation -/

namespace Chess

theorem PRes.bind_ok_eval {α β : Type} (a : α) (f : α → PRes β) :
    PRes.bind (.ok a) f = f a := rfl

theorem PRes.bind_err_eval {α β : Type} (e : FenError) (f : α → PRes β) :
    PRes.bind (.err e) f = .err e := rfl

theorem liftE_ok_eval {α : Type} (a : α) : liftE (.ok a) = (.ok a : PRes α) := rfl

theorem boardFromFen_fields (f0 f1 f2 f3 : List Nat) (rest : List (List Nat))
    (s : List Nat) (hs : splitWs s = f0 :: f1 :: f2 :: f3 :: rest)
    (hr : rest.length ≤ 2) :
    boardFromFen s =
      PRes.bind (piecePlacement f0) (fun pieces =>
      PRes.bind (liftE ((colorFromChars f1).mapError .ColorErr)) (fun color =>
      PRes.bind (liftE ((castleRightsFromStr f2).mapError .CastleErr)) (fun cr =>
      PRes.bind (liftE (parseEpField f3)) (fun ep =>
      PRes.bind (parseHalfmoveField rest) (fun hm =>
      PRes.bind (parseFullmoveField hm rest) (fun fm =>
      .ok ⟨pieces, color, cr, ep, hm, fm⟩)))))) := by
  simp only [boardFromFen, hs]
  rw [if_neg (by simp only [List.length_cons]; omega)]

theorem parseHalfmoveField_natToChars (hm : Nat) (tail : List (List Nat)) :
    parseHalfmoveField (natToChars hm :: tail) =
      if 100 < hm then .err .HalfmoveClock else .ok hm := by
  simp only [parseHalfmoveField, parseUnsigned_natToChars]
  by_cases h255 : hm ≤ 255
  · simp [h255]
  · have h100 : 100 < hm := by omega
    simp [h255, h100]

theorem parseFullmoveField_two (hm fm : Nat) (a : List Nat) (hfm : fm ≤ 65535) :
    parseFullmoveField hm [a, natToChars fm] =
      if fm = 0 then .err .FullmoveCounter
      else if (fm * 2) % 65536 < hm then .err .HalfmoveClock
      else .ok fm := by
  simp only [parseFullmoveField, parseUnsigned_natToChars]
  simp [hfm]

theorem parseFullmoveField_one (hm : Nat) (a : List Nat) :
    parseFullmoveField hm [a] = .ok 1 := rfl

/-- Claim C9, amended.  For any well-formed first four FEN fields (placement,
color, castling, en passant — each nonempty, whitespace-free and accepted by
its field parser) and numeric values `hm`, `fm`:
(a) a supplied halfmove value above 100 is rejected (`HalfmoveClock`);
(b) a supplied fullmove value 0 is rejected (`FullmoveCounter`);
(c) with BOTH numeric fields supplied, `halfmove > fullmove*2` (the `u16`
    product wrapping modulo 2^16) is rejected;
(d) with both supplied and none of the above, the fields are accepted;
(e) with the halfmove field supplied but the fullmove field ABSENT, the value
    is accepted whenever `hm ≤ 100` — the `2·fullmove` bound is NOT applied,
    contrary to the claim's "fullmove defaulting to 1" reading. -/
theorem c9_numeric_field_validation
    (f0 f1 f2 f3 : List Nat) (pieces : List (Option Piece)) (col : Color)
    (cr : CastleRights) (ep : Option Nat)
    (h0 : piecePlacement f0 = .ok pieces) (h1 : colorFromChars f1 = .ok col)
    (h2 : castleRightsFromStr f2 = .ok cr) (h3 : parseEpField f3 = .ok ep)
    (hgood : ∀ f ∈ [f0, f1, f2, f3], f ≠ [] ∧ ∀ c ∈ f, isWsCh c = false)
    (hm fm : Nat) :
    (100 < hm →
      boardFromFen (joinSp [f0, f1, f2, f3, natToChars hm, natToChars fm]) =
        .err .HalfmoveClock) ∧
    (hm ≤ 100 → fm = 0 →
      boardFromFen (joinSp [f0, f1, f2, f3, natToChars hm, natToChars fm]) =
        .err .FullmoveCounter) ∧
    (hm ≤ 100 → 1 ≤ fm → fm ≤ 65535 → (fm * 2) % 65536 < hm →
      boardFromFen (joinSp [f0, f1, f2, f3, natToChars hm, natToChars fm]) =
        .err .HalfmoveClock) ∧
    (hm ≤ 100 → 1 ≤ fm → fm ≤ 65535 → ¬((fm * 2) % 65536 < hm) →
      boardFromFen (joinSp [f0, f1, f2, f3, natToChars hm, natToChars fm]) =
        .ok ⟨pieces, col, cr, ep, hm, fm⟩) ∧
    (hm ≤ 100 →
      boardFromFen (joinSp [f0, f1, f2, f3, natToChars hm]) =
        .ok ⟨pieces, col, cr, ep, hm, 1⟩) := by
  have hnum : ∀ k : Nat, natToChars k ≠ [] ∧ ∀ c ∈ natToChars k, isWsCh c = false :=
    fun k => ⟨natToChars_ne_nil, fun c hc => digits_not_ws (natToChars_mem c hc)⟩
  have hgood6 : ∀ f ∈ [f0, f1, f2, f3, natToChars hm, natToChars fm],
      f ≠ [] ∧ ∀ c ∈ f, isWsCh c = false := by
    intro f hf
    simp only [List.mem_cons, List.not_mem_nil, or_false] at hf
    rcases hf with rfl | rfl | rfl | rfl | rfl | rfl
    · exact hgood _ (by simp)
    · exact hgood _ (by simp)
    · exact hgood _ (by simp)
    · exact hgood _ (by simp)
    · exact hnum hm
    · exact hnum fm
  have hgood5 : ∀ f ∈ [f0, f1, f2, f3, natToChars hm],
      f ≠ [] ∧ ∀ c ∈ f, isWsCh c = false := by
    intro f hf
    simp only [List.mem_cons, List.not_mem_nil, or_false] at hf
    rcases hf with rfl | rfl | rfl | rfl | rfl
    · exact hgood _ (by simp)
    · exact hgood _ (by simp)
    · exact hgood _ (by simp)
    · exact hgood _ (by simp)
    · exact hnum hm
  have hsplit6 := splitWs_joinSp [f0, f1, f2, f3, natToChars hm, natToChars fm]
    (fun f hf => (hgood6 f hf).1) (fun f hf => (hgood6 f hf).2)
  have hsplit5 := splitWs_joinSp [f0, f1, f2, f3, natToChars hm]
    (fun f hf => (hgood5 f hf).1) (fun f hf => (hgood5 f hf).2)
  have hb6 := boardFromFen_fields f0 f1 f2 f3 [natToChars hm, natToChars fm] _
    hsplit6 (by simp)
  have hb5 := boardFromFen_fields f0 f1 f2 f3 [natToChars hm] _ hsplit5 (by simp)
  rw [h0, h1, h2, h3] at hb6 hb5
  simp only [Except.mapError, liftE_ok_eval, PRes.bind_ok_eval] at hb6 hb5
  rw [parseHalfmoveField_natToChars] at hb6 hb5
  refine ⟨?_, ?_, ?_, ?_, ?_⟩
  · intro hhm
    rw [hb6, if_pos hhm, PRes.bind_err_eval]
  · intro hhm hfm
    subst hfm
    rw [hb6, if_neg (by omega), PRes.bind_ok_eval,
      parseFullmoveField_two hm 0 _ (by omega), if_pos rfl, PRes.bind_err_eval]
  · intro hhm hfm1 hfm2 hwrap
    rw [hb6, if_neg (by omega), PRes.bind_ok_eval,
      parseFullmoveField_two hm fm _ hfm2, if_neg (by omega), if_pos hwrap,
      PRes.bind_err_eval]
  · intro hhm hfm1 hfm2 hwrap
    rw [hb6, if_neg (by omega), PRes.bind_ok_eval,
      parseFullmoveField_two hm fm _ hfm2, if_neg (by omega), if_neg hwrap,
      PRes.bind_ok_eval]
  · intro hhm
    rw [hb5, if_neg (by omega), PRes.bind_ok_eval, parseFullmoveField_one,
      PRes.bind_ok_eval]

/-- Claim C9, counterexample to the claim as stated: the five-field FEN
`8/8/8/8/8/8/8/8 w - - 50` supplies halfmove 50 with the fullmove field
absent (defaulting to 1); the claim demands an error since 50 > 2·1, but the
parser ACCEPTS it — the `halfmove ≤ 2·fullmove` check runs only when the
fullmove field is present. -/
theorem c9_five_field_halfmove_accepted :
    boardFromFen (chars "8/8/8/8/8/8/8/8 w - - 50") =
      PRes.ok ⟨List.replicate 64 none, .White, ⟨.NoRights, .NoRights⟩, none, 50, 1⟩ := by
  decide

/-- Witness for the amended C9 theorem: at the concrete fields of the empty
board with hm = 3, fm = 2, conjunct (d) accepts. -/
theorem c9_numeric_field_validation_witness :
    boardFromFen (joinSp [chars "8/8/8/8/8/8/8/8", chars "w", chars "-", chars "-",
        natToChars 3, natToChars 2]) =
      PRes.ok ⟨List.replicate 64 none, .White, ⟨.NoRights, .NoRights⟩, none, 3, 2⟩ :=
  (c9_numeric_field_validation (chars "8/8/8/8/8/8/8/8") (chars "w") (chars "-")
    (chars "-") (List.replicate 64 none) .White ⟨.NoRights, .NoRights⟩ none
    (by decide) rfl rfl rfl (by decide) 3 2).2.2.2.1
    (by omega) (by omega) (by omega) (by decide)

end Chess

/-! ## Claim C4: FEN round-trip — counting and writing helpers -/

namespace Chess

instance {ε α : Type} [DecidableEq ε] [DecidableEq α] : DecidableEq (Except ε α) := fun a b =>
  match a, b with
  | .ok x, .ok y => if h : x = y then .isTrue (by rw [h]) else .isFalse (by simp [h])
  | .error x, .error y => if h : x = y then .isTrue (by rw [h]) else .isFalse (by simp [h])
  | .ok _, .error _ => .isFalse (by simp)
  | .error _, .ok _ => .isFalse (by simp)

/-- Combined counter update for one placed piece, exactly the updates done by
`piece_placement` in its success path. -/
def bumpCounts (cts : PlacementCounts) (p : Piece) : PlacementCounts :=
  let c1 :=
    if p.color = Color.White then { cts with whitePieces := cts.whitePieces + 1 }
    else { cts with blackPieces := cts.blackPieces + 1 }
  if p.pieceType = PieceType.Pawn then
    if p.color = Color.White then { c1 with whitePawns := c1.whitePawns + 1 }
    else { c1 with blackPawns := c1.blackPawns + 1 }
  else c1

/-- Writing one already-formatted rank row back into the pieces array at
file positions `f, f+1, ...` of rank `ri` (the semantics of the parser's
per-rank loop on a formatter-produced string). -/
def applyRow (ri : Nat) : Nat → List (Option Piece) →
    List (Option Piece) → PlacementCounts → List (Option Piece) × PlacementCounts
  | _, [], pieces, cts => (pieces, cts)
  | f, none :: row, pieces, cts => applyRow ri (f + 1) row pieces cts
  | f, some p :: row, pieces, cts =>
    applyRow ri (f + 1) row (pieces.set (Square.withFileRank f ri) (some p)) (bumpCounts cts p)

/-- Iterating `applyRow` over successive ranks. -/
def applyRows (ri : Nat) : List (List (Option Piece)) →
    List (Option Piece) × PlacementCounts → List (Option Piece) × PlacementCounts
  | [], st => st
  | row :: rest, st => applyRows (ri + 1) rest (applyRow ri 0 row st.1 st.2)

/-- "This array cell holds a white piece." -/
def isSomeWhite (op : Option Piece) : Bool :=
  match op with
  | some p => decide (p.color = Color.White)
  | none => false

/-- "This array cell holds a black piece." -/
def isSomeBlack (op : Option Piece) : Bool :=
  match op with
  | some p => decide (p.color = Color.Black)
  | none => false

/-- "This array cell holds a white pawn." -/
def isSomeWhitePawn (op : Option Piece) : Bool :=
  match op with
  | some p => decide (p.color = Color.White ∧ p.pieceType = PieceType.Pawn)
  | none => false

/-- "This array cell holds a black pawn." -/
def isSomeBlackPawn (op : Option Piece) : Bool :=
  match op with
  | some p => decide (p.color = Color.Black ∧ p.pieceType = PieceType.Pawn)
  | none => false

/-- The validity conditions the FEN parser checks, stated of a builder: a
64-cell pieces array, no pawn on the first or last rank, at most 16 pieces
and 8 pawns per color, en passant (when set) a square on rank Three or Six,
halfmove clock at most 100, fullmove counter in 1..=65535, and the wrapped
`halfmove ≤ 2·fullmove` bound. -/
def validBuilder (b : BoardBuilder) : Bool :=
  decide (b.pieces.length = 64) &&
  (List.range 64).all (fun j =>
    match pieceAt b.pieces j with
    | some p =>
      !(decide (p.pieceType = PieceType.Pawn) &&
        (decide (Square.rank j = 0) || decide (Square.rank j = 7)))
    | none => true) &&
  decide (b.pieces.countP isSomeWhite ≤ 16) &&
  decide (b.pieces.countP isSomeBlack ≤ 16) &&
  decide (b.pieces.countP isSomeWhitePawn ≤ 8) &&
  decide (b.pieces.countP isSomeBlackPawn ≤ 8) &&
  (match b.epSquare with
   | none => true
   | some sq => decide (sq < 64) && (decide (Square.rank sq = 2) || decide (Square.rank sq = 5))) &&
  decide (b.halfmoveClock ≤ 100) &&
  decide (1 ≤ b.fullmoveCounter) &&
  decide (b.fullmoveCounter ≤ 65535) &&
  !decide ((b.fullmoveCounter * 2) % 65536 < b.halfmoveClock)

/-- A canonical FEN string: one produced by the formatter from some valid
builder (minimal empty-run digits, single spaces, six fields). -/
def CanonicalFen (s : List Nat) : Prop :=
  ∃ b : BoardBuilder, validBuilder b = true ∧ formatFen b = s

end Chess

namespace Chess

theorem pieceAt_eq (l : List (Option Piece)) (j : Nat) :
    pieceAt l j = (l[j]?).getD none := by
  simp [pieceAt, List.getD_eq_getElem?_getD]

theorem pieceAt_set_self {l : List (Option Piece)} {j : Nat} (h : j < l.length)
    (v : Option Piece) : pieceAt (l.set j v) j = v := by
  rw [pieceAt_eq, List.getElem?_set_self h]
  rfl

theorem pieceAt_set_ne {l : List (Option Piece)} {i j : Nat} (h : i ≠ j)
    (v : Option Piece) : pieceAt (l.set i v) j = pieceAt l j := by
  rw [pieceAt_eq, List.getElem?_set_ne h, ← pieceAt_eq]

theorem pieceAt_out {l : List (Option Piece)} {j : Nat} (h : l.length ≤ j) :
    pieceAt l j = none := by
  rw [pieceAt_eq, List.getElem?_eq_none h]
  rfl

theorem pieceAt_ext {l1 l2 : List (Option Piece)} (hlen : l1.length = l2.length)
    (h : ∀ j, pieceAt l1 j = pieceAt l2 j) : l1 = l2 := by
  refine List.ext_getElem hlen (fun n h1 h2 => ?_)
  have := h n
  rw [pieceAt_eq, pieceAt_eq, List.getElem?_eq_getElem h1,
    List.getElem?_eq_getElem h2] at this
  simpa using this

theorem rowOf_length {l : List (Option Piece)} (hl : l.length = 64) {r : Nat}
    (hr : r < 8) : (rowOf l r).length = 8 := by
  simp [rowOf, hl]
  omega

theorem rowOf_pieceAt {l : List (Option Piece)} (hl : l.length = 64) {r i : Nat}
    (hr : r < 8) (hi : i < 8) : pieceAt (rowOf l r) i = pieceAt l (8 * r + i) := by
  rw [pieceAt_eq, pieceAt_eq, rowOf]
  rw [List.getElem?_take, if_pos hi, List.getElem?_drop]

theorem mem_rowOf {l : List (Option Piece)} (hl : l.length = 64) {r : Nat}
    (hr : r < 8) {q : Piece} (hm : some q ∈ rowOf l r) :
    ∃ i < 8, pieceAt l (8 * r + i) = some q := by
  rcases List.getElem_of_mem hm with ⟨i, hilt, hget⟩
  have hlen := rowOf_length hl hr
  refine ⟨i, by omega, ?_⟩
  rw [← rowOf_pieceAt hl hr (by omega)]
  rw [pieceAt_eq, List.getElem?_eq_getElem hilt]
  simpa using hget

/-- `natToChars` of a single-digit value. -/
theorem natToChars_small {e : Nat} (h : e < 10) : natToChars e = [48 + e] := by
  unfold natToChars natToCharsAux
  rw [if_pos h]

theorem pieceChar_not_digit (p : Piece) : chDigit (pieceChar p) = none := by
  rcases p with ⟨pt, c⟩
  cases pt <;> cases c <;> rfl

theorem pieceFromChar_pieceChar (p : Piece) : pieceFromChar (pieceChar p) = .ok p := by
  rcases p with ⟨pt, c⟩
  cases pt <;> cases c <;> rfl

theorem pieceChar_ge (p : Piece) : 48 ≤ pieceChar p := by
  rcases p with ⟨pt, c⟩
  cases pt <;> cases c <;> decide

theorem formatRankAux_ge (row : List (Option Piece)) :
    ∀ e, ∀ c ∈ formatRankAux row e, 48 ≤ c := by
  induction row with
  | nil =>
    intro e c hc
    unfold formatRankAux at hc
    split at hc
    · exact (natToChars_mem c hc).1
    · simp at hc
  | cons op row ih =>
    intro e c hc
    cases op with
    | none => exact ih (e + 1) c hc
    | some p =>
      unfold formatRankAux at hc
      rw [List.mem_append] at hc
      rcases hc with hc | hc
      · split at hc
        · exact (natToChars_mem c hc).1
        · simp at hc
      · rcases List.mem_cons.mp hc with rfl | hc
        · exact pieceChar_ge p
        · exact ih 0 c hc

theorem mem_joinSlash {rows : List (List Nat)} {c : Nat} (h : c ∈ joinSlash rows) :
    c = 47 ∨ ∃ r ∈ rows, c ∈ r := by
  induction rows with
  | nil => simp [joinSlash] at h
  | cons r rest ih =>
    cases rest with
    | nil =>
      simp only [joinSlash] at h
      exact Or.inr ⟨r, by simp, h⟩
    | cons g gs =>
      simp only [joinSlash, List.mem_append, List.mem_cons] at h
      rcases h with h | h | h
      · exact Or.inr ⟨r, by simp, h⟩
      · exact Or.inl h
      · rcases ih h with h | ⟨r', hr', hc⟩
        · exact Or.inl h
        · exact Or.inr ⟨r', by simp [hr'], hc⟩

theorem joinSlash_ne_nil_of_two {r g : List Nat} {gs : List (List Nat)} :
    joinSlash (r :: g :: gs) ≠ [] := by
  simp only [joinSlash]
  intro h
  rcases List.append_eq_nil.mp h with ⟨_, h2⟩
  cases h2

theorem splitOnSlash_ne_nil (l : List Nat) : splitOnSlash l ≠ [] := by
  induction l with
  | nil => simp [splitOnSlash]
  | cons c rest ih =>
    unfold splitOnSlash
    split
    · simp
    · cases hs : splitOnSlash rest with
      | nil => simp
      | cons t ts => simp

theorem splitOnSlash_noslash (r : List Nat) (h : ∀ c ∈ r, c ≠ 47) :
    splitOnSlash r = [r] := by
  induction r with
  | nil => rfl
  | cons c rest ih =>
    unfold splitOnSlash
    rw [if_neg (h c (by simp))]
    rw [ih (fun x hx => h x (List.mem_cons_of_mem _ hx))]

theorem splitOnSlash_append (r l : List Nat) (h : ∀ c ∈ r, c ≠ 47) :
    splitOnSlash (r ++ l) =
      match splitOnSlash l with
      | t :: ts => (r ++ t) :: ts
      | [] => [r] := by
  induction r with
  | nil =>
    cases hs : splitOnSlash l with
    | nil => exact absurd hs (splitOnSlash_ne_nil l)
    | cons t ts => simp [hs]
  | cons c rest ih =>
    simp only [List.cons_append]
    rw [splitOnSlash]
    rw [if_neg (h c (by simp))]
    rw [ih (fun x hx => h x (List.mem_cons_of_mem _ hx))]
    cases hs : splitOnSlash l with
    | nil => exact absurd hs (splitOnSlash_ne_nil l)
    | cons t ts => rfl

theorem splitOnSlash_joinSlash (rows : List (List Nat)) (hne : rows ≠ [])
    (hns : ∀ r ∈ rows, ∀ c ∈ r, c ≠ 47) :
    splitOnSlash (joinSlash rows) = rows := by
  induction rows with
  | nil => exact absurd rfl hne
  | cons r rest ih =>
    cases rest with
    | nil =>
      show splitOnSlash (joinSlash [r]) = [r]
      simp only [joinSlash]
      exact splitOnSlash_noslash r (hns r (by simp))
    | cons g gs =>
      show splitOnSlash (r ++ 47 :: joinSlash (g :: gs)) = r :: g :: gs
      rw [splitOnSlash_append r _ (hns r (by simp))]
      have hgg : splitOnSlash (47 :: joinSlash (g :: gs)) = [] :: splitOnSlash (joinSlash (g :: gs)) := by
        rw [splitOnSlash]
        rw [if_pos rfl]
      rw [hgg, ih (by simp) (fun x hx => hns x (List.mem_cons_of_mem _ hx))]
      simp

end Chess

namespace Chess

theorem chDigit_digit {e : Nat} (h : e ≤ 9) : chDigit (48 + e) = some e := by
  unfold chDigit
  rw [if_pos (by omega)]
  congr 1
  omega

theorem placeRank_nil (ri f : Nat) (pieces : List (Option Piece)) (cts : PlacementCounts) :
    placeRank ri [] f pieces cts = if f = 8 then .ok (pieces, cts) else .err (.Files f) :=
  rfl

theorem placeRank_digit_step (ri f e : Nat) (he : e ≤ 9) (restCh : List Nat)
    (pieces : List (Option Piece)) (cts : PlacementCounts) :
    placeRank ri ((48 + e) :: restCh) f pieces cts =
      placeRank ri restCh (f + e) pieces cts := by
  rw [placeRank, chDigit_digit he]

theorem placeRank_piece_step (ri f : Nat) (p : Piece) (restCh : List Nat)
    (pieces : List (Option Piece)) (cts : PlacementCounts)
    (hf : f < 8) (hp : (ri = 0 ∨ ri = 7) → p.pieceType ≠ .Pawn) :
    placeRank ri (pieceChar p :: restCh) f pieces cts =
      placeRank ri restCh (f + 1)
        (pieces.set (Square.withFileRank f ri) (some p)) (bumpCounts cts p) := by
  rw [placeRank, pieceChar_not_digit, pieceFromChar_pieceChar]
  dsimp only
  by_cases hpt : p.pieceType = PieceType.Pawn
  · have hri : ¬(ri = 0 ∨ ri = 7) := fun h => hp h hpt
    rw [if_pos hpt, if_neg hri, if_neg (by omega : ¬ 8 ≤ f)]
    congr 1
    unfold bumpCounts
    by_cases hc : p.color = Color.White <;> simp [hpt, hc]
  · rw [if_neg hpt, if_neg (by omega : ¬ 8 ≤ f)]
    congr 1
    unfold bumpCounts
    by_cases hc : p.color = Color.White <;> simp [hpt, hc]

theorem placeRank_formatRankAux (ri : Nat) (row : List (Option Piece)) :
    ∀ (e f : Nat) (pieces : List (Option Piece)) (cts : PlacementCounts),
      f + e + row.length = 8 →
      ((ri = 0 ∨ ri = 7) → ∀ q : Piece, some q ∈ row → q.pieceType ≠ .Pawn) →
      placeRank ri (formatRankAux row e) f pieces cts =
        .ok (applyRow ri (f + e) row pieces cts) := by
  induction row with
  | nil =>
    intro e f pieces cts hlen _
    simp only [List.length_nil] at hlen
    show placeRank ri (if 0 < e then natToChars e else []) f pieces cts = _
    by_cases he : 0 < e
    · rw [if_pos he, natToChars_small (by omega),
        placeRank_digit_step ri f e (by omega), placeRank_nil,
        if_pos (by omega)]
      rfl
    · rw [if_neg he]
      have : e = 0 := by omega
      subst this
      rw [placeRank_nil, if_pos (by omega)]
      rfl
  | cons op row ih =>
    intro e f pieces cts hlen hpawn
    cases op with
    | none =>
      show placeRank ri (formatRankAux row (e + 1)) f pieces cts = _
      rw [ih (e + 1) f pieces cts (by simp at hlen ⊢; omega)
        (fun h q hq => hpawn h q (List.mem_cons_of_mem _ hq))]
      rfl
    | some p =>
      show placeRank ri
        ((if 0 < e then natToChars e else []) ++ pieceChar p :: formatRankAux row 0)
        f pieces cts = _
      have hp : (ri = 0 ∨ ri = 7) → p.pieceType ≠ .Pawn :=
        fun h => hpawn h p (by simp)
      simp only [List.length_cons] at hlen
      by_cases he : 0 < e
      · rw [if_pos he]
        rw [natToChars_small (by omega)]
        show placeRank ri ((48 + e) :: pieceChar p :: formatRankAux row 0) f pieces cts = _
        rw [placeRank_digit_step ri f e (by omega),
          placeRank_piece_step ri (f + e) p _ _ _ (by omega) hp,
          ih 0 (f + e + 1) _ _ (by omega)
            (fun h q hq => hpawn h q (List.mem_cons_of_mem _ hq))]
        rfl
      · rw [if_neg he]
        have : e = 0 := by omega
        subst this
        simp only [List.nil_append]
        rw [placeRank_piece_step ri f p _ _ _ (by omega) hp,
          ih 0 (f + 1) _ _ (by omega)
            (fun h q hq => hpawn h q (List.mem_cons_of_mem _ hq))]
        rfl

theorem applyRow_fst_length (ri : Nat) (row : List (Option Piece)) :
    ∀ (f : Nat) (pieces : List (Option Piece)) (cts : PlacementCounts),
      ((applyRow ri f row pieces cts).1).length = pieces.length := by
  induction row with
  | nil => intro f pieces cts; rfl
  | cons op row ih =>
    intro f pieces cts
    cases op with
    | none => exact ih (f + 1) pieces cts
    | some p =>
      rw [applyRow, ih]
      exact List.length_set ..

theorem applyRow_fst_pieceAt (ri : Nat) (row : List (Option Piece)) :
    ∀ (f : Nat) (pieces : List (Option Piece)) (cts : PlacementCounts) (j : Nat),
      ri * 8 + f + row.length ≤ pieces.length →
      pieceAt (applyRow ri f row pieces cts).1 j =
        if ri * 8 + f ≤ j ∧ j < ri * 8 + f + row.length then
          match pieceAt row (j - (ri * 8 + f)) with
          | some p => some p
          | none => pieceAt pieces j
        else pieceAt pieces j := by
  induction row with
  | nil =>
    intro f pieces cts j hb
    rw [if_neg (by simp only [List.length_nil]; omega)]
    rfl
  | cons op row ih =>
    intro f pieces cts j hb
    simp only [List.length_cons] at hb
    cases op with
    | none =>
      show pieceAt (applyRow ri (f + 1) row pieces cts).1 j = _
      rw [ih (f + 1) pieces cts j (by omega)]
      simp only [List.length_cons]
      by_cases hj : ri * 8 + f ≤ j ∧ j < ri * 8 + f + (row.length + 1)
      · rw [if_pos hj]
        by_cases hj0 : j = ri * 8 + f
        · rw [if_neg (by omega)]
          have : j - (ri * 8 + f) = 0 := by omega
          rw [this]
          rfl
        · rw [if_pos (by omega)]
          have h1 : j - (ri * 8 + (f + 1)) = (j - (ri * 8 + f)) - 1 := by omega
          have h2 : ∃ k, j - (ri * 8 + f) = k + 1 := ⟨j - (ri * 8 + f) - 1, by omega⟩
          rcases h2 with ⟨k, hk⟩
          rw [h1, hk]
          rfl
      · rw [if_neg hj, if_neg (by omega)]
    | some p =>
      show pieceAt (applyRow ri (f + 1) row
        (pieces.set (Square.withFileRank f ri) (some p)) (bumpCounts cts p)).1 j = _
      rw [ih (f + 1) _ _ j (by rw [List.length_set]; omega)]
      simp only [List.length_cons]
      have hpos : Square.withFileRank f ri = ri * 8 + f := by
        unfold Square.withFileRank; omega
      by_cases hj : ri * 8 + f ≤ j ∧ j < ri * 8 + f + (row.length + 1)
      · rw [if_pos hj]
        by_cases hj0 : j = ri * 8 + f
        · rw [if_neg (by omega)]
          subst hj0
          rw [hpos, pieceAt_set_self (by omega) (some p)]
          have : ri * 8 + f - (ri * 8 + f) = 0 := by omega
          rw [this]
          rfl
        · rw [if_pos (by omega)]
          have h1 : j - (ri * 8 + (f + 1)) = (j - (ri * 8 + f)) - 1 := by omega
          have h2 : ∃ k, j - (ri * 8 + f) = k + 1 := ⟨j - (ri * 8 + f) - 1, by omega⟩
          rcases h2 with ⟨k, hk⟩
          rw [h1, hk]
          have hne : Square.withFileRank f ri ≠ j := by rw [hpos]; omega
          rw [pieceAt_set_ne hne]
          rfl
      · rw [if_neg hj, if_neg (by omega)]
        have hne : Square.withFileRank f ri ≠ j := by rw [hpos]; omega
        rw [pieceAt_set_ne hne]

theorem applyRow_snd (ri : Nat) (row : List (Option Piece)) :
    ∀ (f : Nat) (pieces : List (Option Piece)) (a b c d : Nat),
      (applyRow ri f row pieces ⟨a, b, c, d⟩).2 =
        ⟨a + row.countP isSomeWhitePawn, b + row.countP isSomeBlackPawn,
         c + row.countP isSomeWhite, d + row.countP isSomeBlack⟩ := by
  induction row with
  | nil =>
    intro f pieces a b c d
    simp [applyRow, List.countP_nil]
  | cons op row ih =>
    intro f pieces a b c d
    cases op with
    | none =>
      show (applyRow ri (f + 1) row pieces ⟨a, b, c, d⟩).2 = _
      rw [ih]
      simp [List.countP_cons, isSomeWhitePawn, isSomeBlackPawn, isSomeWhite, isSomeBlack]
    | some p =>
      show (applyRow ri (f + 1) row _ (bumpCounts ⟨a, b, c, d⟩ p)).2 = _
      have hbump : ∀ q : Piece, bumpCounts (⟨a, b, c, d⟩ : PlacementCounts) q =
          ⟨a + (if isSomeWhitePawn (some q) then 1 else 0),
           b + (if isSomeBlackPawn (some q) then 1 else 0),
           c + (if isSomeWhite (some q) then 1 else 0),
           d + (if isSomeBlack (some q) then 1 else 0)⟩ := by
        intro q
        rcases q with ⟨pt, pc⟩
        unfold bumpCounts
        cases pc <;> by_cases hpt : pt = PieceType.Pawn <;>
          simp [hpt, isSomeWhitePawn, isSomeBlackPawn, isSomeWhite, isSomeBlack]
      rw [hbump p, ih]
      simp only [List.countP_cons, PlacementCounts.mk.injEq]
      refine ⟨?_, ?_, ?_, ?_⟩ <;> (split <;> omega)

end Chess

namespace Chess

theorem placeRanks_fmt (rows : List (List (Option Piece))) :
    ∀ (ri : Nat) (pieces : List (Option Piece)) (cts : PlacementCounts),
      (∀ r ∈ rows, r.length = 8) →
      (∀ i, i < rows.length → (ri + i = 0 ∨ ri + i = 7) →
        ∀ q : Piece, some q ∈ rows.getD i [] → q.pieceType ≠ .Pawn) →
      placeRanks ri (rows.map (fun r => formatRankAux r 0)) pieces cts =
        .ok (applyRows ri rows (pieces, cts)) := by
  induction rows with
  | nil => intro ri pieces cts _ _; rfl
  | cons r rest ih =>
    intro ri pieces cts hlen hpawn
    show (match placeRank ri (formatRankAux r 0) 0 pieces cts with
      | .ok (pieces', cts') => placeRanks (ri + 1) (rest.map (fun r => formatRankAux r 0)) pieces' cts'
      | .err e => .err e
      | .panicked => .panicked) = _
    rw [placeRank_formatRankAux ri r 0 0 pieces cts
      (by rw [hlen r (by simp)])
      (by
        intro h q hq
        exact hpawn 0 (by simp) (by simpa using h) q (by simpa using hq))]
    show placeRanks (ri + 1) (rest.map (fun r => formatRankAux r 0))
        (applyRow ri 0 r pieces cts).1 (applyRow ri 0 r pieces cts).2 = _
    rw [ih (ri + 1) _ _ (fun x hx => hlen x (List.mem_cons_of_mem _ hx))
      (by
        intro i hi hri q hq
        exact hpawn (i + 1) (by simp; omega) (by omega) q (by simpa using hq))]
    rfl

theorem applyRows_fst_length (rows : List (List (Option Piece))) :
    ∀ (ri : Nat) (st : List (Option Piece) × PlacementCounts),
      ((applyRows ri rows st).1).length = st.1.length := by
  induction rows with
  | nil => intro ri st; rfl
  | cons r rest ih =>
    intro ri st
    show ((applyRows (ri + 1) rest (applyRow ri 0 r st.1 st.2)).1).length = _
    rw [ih]
    exact applyRow_fst_length ri r 0 st.1 st.2

theorem applyRows_snd (rows : List (List (Option Piece))) :
    ∀ (ri : Nat) (pieces : List (Option Piece)) (a b c d : Nat),
      (applyRows ri rows (pieces, ⟨a, b, c, d⟩)).2 =
        ⟨a + rows.flatten.countP isSomeWhitePawn,
         b + rows.flatten.countP isSomeBlackPawn,
         c + rows.flatten.countP isSomeWhite,
         d + rows.flatten.countP isSomeBlack⟩ := by
  induction rows with
  | nil =>
    intro ri pieces a b c d
    simp [applyRows, List.flatten_nil]
  | cons r rest ih =>
    intro ri pieces a b c d
    show (applyRows (ri + 1) rest (applyRow ri 0 r pieces ⟨a, b, c, d⟩)).2 = _
    rcases hP : applyRow ri 0 r pieces ⟨a, b, c, d⟩ with ⟨p1, c1⟩
    have hc1 : c1 = ⟨a + r.countP isSomeWhitePawn, b + r.countP isSomeBlackPawn,
        c + r.countP isSomeWhite, d + r.countP isSomeBlack⟩ := by
      have := applyRow_snd ri r 0 pieces a b c d
      rw [hP] at this
      exact this
    subst hc1
    rw [ih]
    simp only [List.flatten_cons, List.countP_append, PlacementCounts.mk.injEq]
    omega

theorem applyRows_rowsOf_pieceAt :
    ∀ (k ri : Nat) (l pieces : List (Option Piece)) (cts : PlacementCounts),
      l.length = 64 → pieces.length = 64 → ri + k ≤ 8 →
      (∀ j, ri * 8 ≤ j → pieceAt pieces j = none) →
      ∀ j, pieceAt (applyRows ri
          ((List.range k).map (fun i => rowOf l (ri + i))) (pieces, cts)).1 j =
        if ri * 8 ≤ j ∧ j < (ri + k) * 8 then pieceAt l j else pieceAt pieces j := by
  intro k
  induction k with
  | zero =>
    intro ri l pieces cts hl hp hk hnone j
    rw [if_neg (by omega)]
    rfl
  | succ k ih =>
    intro ri l pieces cts hl hp hk hnone j
    rw [List.range_succ_eq_map, List.map_cons, List.map_map]
    have hmaps : (List.map ((fun i => rowOf l (ri + i)) ∘ Nat.succ) (List.range k)) =
        List.map (fun i => rowOf l (ri + 1 + i)) (List.range k) := by
      refine List.map_congr_left (fun a _ => ?_)
      show rowOf l (ri + (a + 1)) = rowOf l (ri + 1 + a)
      congr 1
      omega
    rw [hmaps]
    show pieceAt (applyRows (ri + 1) _ (applyRow ri 0 (rowOf l ri) pieces cts)).1 j = _
    rcases hP : applyRow ri 0 (rowOf l ri) pieces cts with ⟨p1, c1⟩
    have hri8 : ri < 8 := by omega
    have hrow8 : (rowOf l ri).length = 8 := rowOf_length hl hri8
    have hp1 : ∀ j, pieceAt p1 j =
        if ri * 8 ≤ j ∧ j < ri * 8 + 8 then
          match pieceAt (rowOf l ri) (j - ri * 8) with
          | some p => some p
          | none => pieceAt pieces j
        else pieceAt pieces j := by
      intro j
      have := applyRow_fst_pieceAt ri (rowOf l ri) 0 pieces cts j
        (by rw [hrow8, hp]; omega)
      rw [hP] at this
      simpa [hrow8] using this
    have hlen1 : p1.length = 64 := by
      have := applyRow_fst_length ri (rowOf l ri) 0 pieces cts
      rw [hP] at this
      rw [this, hp]
    have hnone1 : ∀ j, (ri + 1) * 8 ≤ j → pieceAt p1 j = none := by
      intro j hj
      rw [hp1 j, if_neg (by omega)]
      exact hnone j (by omega)
    rw [ih (ri + 1) l p1 c1 hl hlen1 (by omega) hnone1 j]
    by_cases h1 : (ri + 1) * 8 ≤ j ∧ j < (ri + 1 + k) * 8
    · rw [if_pos h1, if_pos (by omega)]
    · rw [if_neg h1]
      rw [hp1 j]
      by_cases h2 : ri * 8 ≤ j ∧ j < ri * 8 + 8
      · rw [if_pos h2, if_pos (by omega)]
        have hidx : j - ri * 8 < 8 := by omega
        have hval : pieceAt (rowOf l ri) (j - ri * 8) = pieceAt l j := by
          rw [rowOf_pieceAt hl hri8 hidx]
          congr 1
          omega
        rw [hval]
        cases hlj : pieceAt l j with
        | some p => rfl
        | none =>
          show pieceAt pieces j = none
          exact hnone j (by omega)
      · rw [if_neg h2, if_neg (by omega)]

theorem flatten_slices (l : List (Option Piece)) :
    ∀ (k m : Nat), m + 8 * k = l.length →
      ((List.range k).map (fun i => (l.drop (m + 8 * i)).take 8)).flatten = l.drop m := by
  intro k
  induction k with
  | zero =>
    intro m hm
    simp only [List.range_zero, List.map_nil, List.flatten_nil]
    symm
    exact List.drop_eq_nil_of_le (by omega)
  | succ k ih =>
    intro m hm
    rw [List.range_succ_eq_map, List.map_cons, List.map_map]
    have hmaps : (List.map ((fun i => (l.drop (m + 8 * i)).take 8) ∘ Nat.succ) (List.range k)) =
        List.map (fun i => (l.drop ((m + 8) + 8 * i)).take 8) (List.range k) := by
      refine List.map_congr_left (fun a _ => ?_)
      show (l.drop (m + 8 * (a + 1))).take 8 = _
      congr 2
      omega
    rw [hmaps, List.flatten_cons, ih (m + 8) (by omega)]
    have : m + 8 * 0 = m := by omega
    rw [this]
    have hdd : l.drop (m + 8) = (l.drop m).drop 8 := by
      rw [List.drop_drop]
    rw [hdd]
    exact List.take_append_drop 8 (l.drop m)

theorem flatten_rowsOf (l : List (Option Piece)) (hl : l.length = 64) :
    ((List.range 8).map (rowOf l)).flatten = l := by
  have hmaps : (List.range 8).map (rowOf l) =
      (List.range 8).map (fun i => (l.drop (0 + 8 * i)).take 8) := by
    refine List.map_congr_left (fun a _ => ?_)
    show rowOf l a = _
    unfold rowOf
    congr 2
    omega
  rw [hmaps, flatten_slices l 8 0 (by omega)]
  rfl

end Chess

namespace Chess

theorem pieceAt_replicate (j : Nat) : pieceAt (List.replicate 64 none : List (Option Piece)) j = none := by
  rw [pieceAt_eq, List.getElem?_replicate]
  split <;> rfl

theorem ge_not_ws {c : Nat} (h : 33 ≤ c) : isWsCh c = false := by
  unfold isWsCh
  simp only [Bool.or_eq_false_iff, decide_eq_false_iff_not]
  omega

theorem piecePlacement_format (l : List (Option Piece)) (hl : l.length = 64)
    (hpawn : ∀ j, j < 64 → ∀ q : Piece, pieceAt l j = some q →
      q.pieceType = PieceType.Pawn → Square.rank j ≠ 0 ∧ Square.rank j ≠ 7)
    (hwp : l.countP isSomeWhite ≤ 16) (hbp : l.countP isSomeBlack ≤ 16)
    (hwn : l.countP isSomeWhitePawn ≤ 8) (hbn : l.countP isSomeBlackPawn ≤ 8) :
    piecePlacement (formatPlacement l) = .ok l := by
  have hsplit : splitOnSlash (formatPlacement l) =
      ((List.range 8).reverse).map (fun r => formatRankAux (rowOf l r) 0) := by
    refine splitOnSlash_joinSlash _ (by simp) ?_
    intro r hr c hc
    rcases List.mem_map.mp hr with ⟨i, _, rfl⟩
    have := formatRankAux_ge (rowOf l i) 0 c hc
    omega
  simp only [piecePlacement, hsplit]
  rw [if_neg (by simp)]
  have hrev : (((List.range 8).reverse).map (fun r => formatRankAux (rowOf l r) 0)).reverse =
      ((List.range 8).map (rowOf l)).map (fun r => formatRankAux r 0) := by
    rw [← List.map_reverse, List.reverse_reverse, List.map_map]
    rfl
  rw [hrev]
  rw [placeRanks_fmt ((List.range 8).map (rowOf l)) 0 (List.replicate 64 none)
    PlacementCounts.zero
    (by
      intro r hr
      rcases List.mem_map.mp hr with ⟨i, hi, rfl⟩
      exact rowOf_length hl (List.mem_range.mp hi))
    (by
      intro i hi hri q hq
      simp only [List.length_map, List.length_range] at hi
      have hgd : (((List.range 8).map (rowOf l)).getD i []) = rowOf l i := by
        rw [List.getD_eq_getElem?_getD, List.getElem?_map, List.getElem?_range hi]
        rfl
      rw [hgd] at hq
      rcases mem_rowOf hl hi hq with ⟨kk, hkk, hat⟩
      intro hqp
      have hrank : Square.rank (8 * i + kk) = i := by
        unfold Square.rank
        omega
      have := hpawn (8 * i + kk) (by omega) q hat hqp
      rw [hrank] at this
      simp only [Nat.zero_add] at hri
      omega)]
  -- the accumulated state
  have hrows0 : ((List.range 8).map (rowOf l)) =
      (List.range 8).map (fun i => rowOf l (0 + i)) := by
    refine List.map_congr_left (fun a _ => ?_)
    rw [Nat.zero_add]
  have hfst : (applyRows 0 ((List.range 8).map (rowOf l))
      ((List.replicate 64 none : List (Option Piece)), PlacementCounts.zero)).1 = l := by
    refine pieceAt_ext ?_ ?_
    · rw [applyRows_fst_length]
      simp [hl]
    · intro j
      rw [hrows0, applyRows_rowsOf_pieceAt 8 0 l (List.replicate 64 none)
        PlacementCounts.zero hl (by simp) (by omega)
        (fun j _ => pieceAt_replicate j) j]
      by_cases hj : j < 64
      · rw [if_pos (by omega)]
      · rw [if_neg (by omega), pieceAt_replicate, pieceAt_out (by omega)]
  have hsnd : (applyRows 0 ((List.range 8).map (rowOf l))
      ((List.replicate 64 none : List (Option Piece)), PlacementCounts.zero)).2 =
      ⟨l.countP isSomeWhitePawn, l.countP isSomeBlackPawn,
       l.countP isSomeWhite, l.countP isSomeBlack⟩ := by
    show (applyRows 0 _ (_, (⟨0, 0, 0, 0⟩ : PlacementCounts))).2 = _
    rw [applyRows_snd, flatten_rowsOf l hl]
    simp
  rcases hA : applyRows 0 ((List.range 8).map (rowOf l))
      ((List.replicate 64 none : List (Option Piece)), PlacementCounts.zero) with ⟨pp, cc⟩
  rw [hA] at hfst hsnd
  simp only at hfst hsnd
  subst hfst
  subst hsnd
  dsimp only
  rw [if_neg (by omega), if_neg (by omega), if_neg (by omega), if_neg (by omega)]

end Chess

/-! ## Claim C4: FEN round-trip -/

namespace Chess

theorem colorFromChars_format (c : Color) : colorFromChars (colorChars c) = .ok c := by
  cases c <;> rfl

theorem castleRightsFromStr_format (cr : CastleRights) :
    castleRightsFromStr (castleRightsChars cr) = .ok cr := by
  rcases cr with ⟨w, b⟩
  cases w <;> cases b <;> rfl

theorem parseEpField_some_format : ∀ sq : Nat, sq < 64 →
    ((Square.rank sq = 2 ∨ Square.rank sq = 5) →
      parseEpField (epChars (some sq)) = .ok (some sq)) := by
  decide

theorem formatPlacement_ne_nil (l : List (Option Piece)) : formatPlacement l ≠ [] := by
  unfold formatPlacement
  have h8 : (List.range 8).reverse = [7, 6, 5, 4, 3, 2, 1, 0] := by rfl
  rw [h8]
  simp only [List.map]
  exact joinSlash_ne_nil_of_two

theorem formatPlacement_not_ws (l : List (Option Piece)) :
    ∀ c ∈ formatPlacement l, isWsCh c = false := by
  intro c hc
  unfold formatPlacement at hc
  rcases mem_joinSlash hc with rfl | ⟨r, hr, hcr⟩
  · rfl
  · rcases List.mem_map.mp hr with ⟨i, _, rfl⟩
    exact ge_not_ws (by have := formatRankAux_ge (rowOf l i) 0 c hcr; omega)

theorem colorChars_ne_nil (c : Color) : colorChars c ≠ [] := by
  cases c <;> simp [colorChars]

theorem colorChars_not_ws (col : Color) : ∀ c ∈ colorChars col, isWsCh c = false := by
  cases col <;> decide

theorem castleRightsChars_ne_nil (cr : CastleRights) : castleRightsChars cr ≠ [] := by
  rcases cr with ⟨w, b⟩
  cases w <;> cases b <;> decide

theorem castleRightsChars_not_ws (cr : CastleRights) :
    ∀ c ∈ castleRightsChars cr, isWsCh c = false := by
  rcases cr with ⟨w, b⟩
  cases w <;> cases b <;> decide

theorem epChars_ne_nil (ep : Option Nat) : epChars ep ≠ [] := by
  cases ep <;> simp [epChars, squareChars]

theorem epChars_not_ws (ep : Option Nat) : ∀ c ∈ epChars ep, isWsCh c = false := by
  cases ep with
  | none => decide
  | some sq =>
    intro c hc
    simp only [epChars, squareChars, List.mem_cons, List.not_mem_nil, or_false] at hc
    rcases hc with rfl | rfl <;> exact ge_not_ws (by omega)

theorem mapError_ok {ε ε' α : Type} (f : ε → ε') (a : α) :
    Except.mapError f (Except.ok a) = (Except.ok a : Except ε' α) := rfl

/-- `parse ∘ format = id` on builders satisfying the parser's own validation
predicate. -/
theorem fen_roundtrip (b : BoardBuilder) (hv : validBuilder b = true) :
    boardFromFen (formatFen b) = .ok b := by
  obtain ⟨l, col, cr, ep, hm, fm⟩ := b
  simp only [validBuilder, Bool.and_eq_true, and_assoc, decide_eq_true_eq,
    Bool.not_eq_true', decide_eq_false_iff_not] at hv
  obtain ⟨hlen, hpawnB, hwp, hbp, hwn, hbn, hep, hhm, hfm1, hfm2, hwrap⟩ := hv
  have hpawn : ∀ j, j < 64 → ∀ q : Piece, pieceAt l j = some q →
      q.pieceType = PieceType.Pawn → Square.rank j ≠ 0 ∧ Square.rank j ≠ 7 := by
    intro j hj q hq hqp
    rw [List.all_eq_true] at hpawnB
    have h := hpawnB j (List.mem_range.mpr hj)
    rw [hq] at h
    simp only [hqp, decide_True, Bool.true_and, Bool.not_eq_true',
      Bool.or_eq_false_iff, decide_eq_false_iff_not] at h
    exact h
  have hepok : parseEpField (epChars ep) = .ok ep := by
    cases ep with
    | none => rfl
    | some sq =>
      simp only [Bool.and_eq_true, Bool.or_eq_true, decide_eq_true_eq] at hep
      exact parseEpField_some_format sq hep.1 hep.2
  have hsplit : splitWs (formatFen ⟨l, col, cr, ep, hm, fm⟩) =
      [formatPlacement l, colorChars col, castleRightsChars cr, epChars ep,
       natToChars hm, natToChars fm] := by
    show splitWs (joinSp [formatPlacement l, colorChars col, castleRightsChars cr,
      epChars ep, natToChars hm, natToChars fm]) = _
    refine splitWs_joinSp _ ?_ ?_
    · intro f hf
      simp only [List.mem_cons, List.not_mem_nil, or_false] at hf
      rcases hf with rfl | rfl | rfl | rfl | rfl | rfl
      · exact formatPlacement_ne_nil l
      · exact colorChars_ne_nil col
      · exact castleRightsChars_ne_nil cr
      · exact epChars_ne_nil ep
      · exact natToChars_ne_nil
      · exact natToChars_ne_nil
    · intro f hf c hc
      simp only [List.mem_cons, List.not_mem_nil, or_false] at hf
      rcases hf with rfl | rfl | rfl | rfl | rfl | rfl
      · exact formatPlacement_not_ws l c hc
      · exact colorChars_not_ws col c hc
      · exact castleRightsChars_not_ws cr c hc
      · exact epChars_not_ws ep c hc
      · exact digits_not_ws (natToChars_mem c hc)
      · exact digits_not_ws (natToChars_mem c hc)
  rw [boardFromFen_fields (formatPlacement l) (colorChars col) (castleRightsChars cr)
    (epChars ep) [natToChars hm, natToChars fm] _ hsplit (by simp)]
  simp only [piecePlacement_format l hlen hpawn hwp hbp hwn hbn,
    colorFromChars_format, castleRightsFromStr_format, hepok, mapError_ok,
    liftE_ok_eval, PRes.bind_ok_eval, parseHalfmoveField_natToChars]
  rw [if_neg (show ¬100 < hm by omega)]
  simp only [PRes.bind_ok_eval, parseFullmoveField_two hm fm (natToChars hm) hfm2]
  rw [if_neg (show ¬fm = 0 by omega), if_neg hwrap]
  rfl

end Chess

namespace Chess

/-- Claim C4, counterexample to the unrestricted round-trip: the builder with
an empty board, White to move, no rights, no en passant, halfmove clock 5 and
fullmove counter 1 — every field within its type's and the State model's
range, so constructible through the `BoardBuilder` API — formats to
"8/8/8/8/8/8/8/8 w - - 5 1", which the parser REJECTS (halfmove 5 exceeds
2·fullmove = 2), so `parse (format B) = Err`, not `Ok B`. -/
theorem c4_roundtrip_failure :
    boardFromFen (formatFen (⟨List.replicate 64 none, .White,
      ⟨.NoRights, .NoRights⟩, none, 5, 1⟩ : BoardBuilder)) =
      .err .HalfmoveClock := by
  decide

/-- Claim C4, amended: the FEN round-trip holds exactly for builders
satisfying the parser's own validation predicate (`validBuilder`: 64 cells,
no pawn on the first or last rank, ≤16 pieces / ≤8 pawns per color,
en passant on rank Three or Six, halfmove ≤ 100, fullmove in 1..=65535, and
the wrapped `halfmove ≤ 2·fullmove` bound — the last being the condition a
"legally constructible" builder can violate): (1) `parse (format B) = Ok B`
for every such builder, and (2) every canonical FEN string (one produced by
the formatter from a valid builder) parses back to a builder that formats to
the same string character for character. -/
theorem c4_fen_roundtrip :
    (∀ b : BoardBuilder, validBuilder b = true → boardFromFen (formatFen b) = .ok b) ∧
    (∀ s : List Nat, CanonicalFen s →
      ∃ b : BoardBuilder, boardFromFen s = .ok b ∧ formatFen b = s) := by
  refine ⟨fen_roundtrip, ?_⟩
  intro s hs
  rcases hs with ⟨b, hb, rfl⟩
  exact ⟨b, fen_roundtrip b hb, rfl⟩

/-- Witness for C4: both conjuncts applied at the empty valid builder. -/
theorem c4_fen_roundtrip_witness :
    boardFromFen (formatFen (⟨List.replicate 64 none, .White,
      ⟨.NoRights, .NoRights⟩, none, 0, 1⟩ : BoardBuilder)) =
      .ok ⟨List.replicate 64 none, .White, ⟨.NoRights, .NoRights⟩, none, 0, 1⟩ :=
  c4_fen_roundtrip.1 _ (by decide)

end Chess

/-! ## Claim C3: magic bitboards -/

namespace Chess

/-- Source: `SlidingPiece` (core crate); the magic machinery's matches have
exactly a `Bishop` and a `Rook` arm (`magic_number`, exhaustive). -/
inductive SlidingPiece where
  | Bishop
  | Rook
deriving DecidableEq, Repr

/-- One ray loop of `mask_bishop_attacks` / `mask_rook_attacks`:
`while pos != 0 { attacks = attacks.set_bit(pos); if blockers.is_get_bit(pos)
break; pos = step(pos) }`.  A ray on a 64-bit board visits at most 7 squares,
so fuel 8 is exact. -/
def rayAux (step : BitBoard → BitBoard) (blockers : BitBoard) : Nat → BitBoard → BitBoard
  | 0, _ => 0
  | fuel + 1, pos =>
    if pos = 0 then 0
    else if isGetBit blockers pos then pos
    else setBit pos (rayAux step blockers fuel (step pos))

/-- Source: `mask_bishop_attacks` (`gen_consts/bishops.rs` lines 69-119):
the four diagonal rays from the square, each stopping at (and including) the
first blocker. -/
def mask_bishop_attacks (sq : Nat) (blockers : BitBoard) : BitBoard :=
  let s := squareBB sq
  rayAux (fun p => bbRight (bbUp p)) blockers 8 (bbRight (bbUp s)) |||
  rayAux (fun p => bbLeft (bbUp p)) blockers 8 (bbLeft (bbUp s)) |||
  rayAux (fun p => bbRight (bbDown p)) blockers 8 (bbRight (bbDown s)) |||
  rayAux (fun p => bbLeft (bbDown p)) blockers 8 (bbLeft (bbDown s))

/-- The `bitboard!` constant of `mask_relevant_bishop_blockers`: the inner
6×6 square (files b-g, ranks 2-7). -/
def INNER_RING : BitBoard := 0x007E7E7E7E7E7E00

/-- Source: `mask_relevant_bishop_blockers` — empty-board bishop attacks
intersected with the inner ring. -/
def mask_relevant_bishop_blockers (sq : Nat) : BitBoard :=
  mask_bishop_attacks sq 0 &&& INNER_RING

/-- Source: `mask_rook_attacks` (`gen_consts/rooks.rs` lines 89-139): the
four orthogonal rays. -/
def mask_rook_attacks (sq : Nat) (blockers : BitBoard) : BitBoard :=
  let s := squareBB sq
  rayAux bbUp blockers 8 (bbUp s) |||
  rayAux bbRight blockers 8 (bbRight s) |||
  rayAux bbDown blockers 8 (bbDown s) |||
  rayAux bbLeft blockers 8 (bbLeft s)

/-- `Rank::One.bitboard()`. -/
def RANK_ONE_BB : BitBoard := 0xFF

/-- `Rank::Eight.bitboard()`. -/
def RANK_EIGHT_BB : BitBoard := 0xFF00000000000000

/-- `File::A.bitboard()`. -/
def FILE_A_BB : BitBoard := 0x0101010101010101

/-- `File::H.bitboard()`. -/
def FILE_H_BB : BitBoard := 0x8080808080808080

/-- Source: `mask_relevant_rook_blockers` — empty-board rook attacks with
each edge rank/file masked out unless the square sits on it (`!x` on `u64`
is `U64MAX ^^^ x`). -/
def mask_relevant_rook_blockers (sq : Nat) : BitBoard :=
  let m0 := mask_rook_attacks sq 0
  let m1 := if Square.rank sq ≠ 0 then m0 &&& (U64MAX ^^^ RANK_ONE_BB) else m0
  let m2 := if Square.rank sq ≠ 7 then m1 &&& (U64MAX ^^^ RANK_EIGHT_BB) else m1
  let m3 := if Square.file sq ≠ 0 then m2 &&& (U64MAX ^^^ FILE_A_BB) else m2
  if Square.file sq ≠ 7 then m3 &&& (U64MAX ^^^ FILE_H_BB) else m3

/-- The `match sliding_piece` arms of `magic_number` for the attack mask. -/
def maskSlidingAttacks : SlidingPiece → Nat → BitBoard → BitBoard
  | .Bishop => mask_bishop_attacks
  | .Rook => mask_rook_attacks

/-- The `match sliding_piece` arms of `magic_number` for the relevant
blockers. -/
def relevantBlockers : SlidingPiece → Nat → BitBoard
  | .Bishop => mask_relevant_bishop_blockers
  | .Rook => mask_relevant_rook_blockers

/-- Source: the `while let` loop of `mask_blockers` (`gen_consts/magic.rs`
lines 50-67): pop the least significant square of `blockers`; the popped
square joins the mask iff bit `i` of `pattern` is set, `i` counting
iterations.  Fuel 64 bounds the pops of a 64-bit word. -/
def maskBlockersAux : Nat → Nat → BitBoard → Nat → BitBoard → BitBoard
  | 0, _, _, _, mask => mask
  | fuel + 1, pattern, blockers, i, mask =>
    match leastSignificantSquare blockers with
    | none => mask
    | some sq =>
      maskBlockersAux fuel pattern (unsetSquare blockers sq) (i + 1)
        (if pattern &&& ((1 <<< i) % U64) != 0 then setSquare mask sq else mask)

/-- Source: `mask_blockers(pattern, blockers)`. -/
def mask_blockers (pattern : Nat) (blockers : BitBoard) : BitBoard :=
  maskBlockersAux 64 pattern blockers 0 0

/-- The magic-index computation shared by the verify loop, the table build
and the lookups: `blockers.wrapping_mul(M) >> (64 - k)`. -/
def magicIndex (b M k : Nat) : Nat := b * M % U64 / 2 ^ (64 - k)

/-- Source: the verify pass of `magic_number` for one candidate
(`gen_consts/magic.rs` lines 106-122): scan the `2^k` blocker patterns,
record each pattern's attack set in `used_attacks` at its magic index, and
fail on a collision with a different attack set (`used_attacks` starts all
`EMPTY`; an `EMPTY` slot counts as unused). -/
def verifyAux (blocks atks : Nat → Nat) (M k : Nat) : Nat → Nat → (Nat → Nat) → Bool
  | 0, _, _ => true
  | fuel + 1, index, used =>
    if used (magicIndex (blocks index) M k) = 0 then
      verifyAux blocks atks M k fuel (index + 1)
        (fun j => if j = magicIndex (blocks index) M k then atks index else used j)
    else if used (magicIndex (blocks index) M k) = atks index then
      verifyAux blocks atks M k fuel (index + 1) used
    else false

/-- The acceptance predicate of `magic_number`'s candidate loop: the
sparsity precheck (at least 6 set bits in the top byte of
`relevant_blockers * M`) plus a successful verify pass over all `2^k`
patterns.  A magic number returned by the search satisfies exactly this. -/
def magicAccepted (p : SlidingPiece) (sq M : Nat) : Bool :=
  let rel := relevantBlockers p sq
  let k := popcount rel
  decide (6 ≤ popcount (rel * M % U64 &&& 0xFF00000000000000)) &&
  verifyAux (fun i => mask_blockers i rel)
    (fun i => maskSlidingAttacks p sq (mask_blockers i rel)) M k (2 ^ k) 0 (fun _ => 0)

/-- Source: the table-filling loop of `bishops::write` / `rooks::write`:
for each pattern, store the pattern's ray attacks at the pattern's magic
index (later patterns overwrite earlier ones). -/
def buildTableAux (blocks atks : Nat → Nat) (M k : Nat) : Nat → Nat → (Nat → Nat) → Nat → Nat
  | 0, _, tbl => tbl
  | fuel + 1, index, tbl =>
    buildTableAux blocks atks M k fuel (index + 1)
      (fun j => if j = magicIndex (blocks index) M k then atks index else tbl j)

/-- Source: `max_blockers = 1 << blockers_count.iter().max()` — the build
loop runs over `0..max_blockers` with the MAXIMUM relevant-bit count over
all 64 squares, not the square's own count. -/
def maxPatterns (p : SlidingPiece) : Nat :=
  2 ^ (((List.range 64).map (fun s => popcount (relevantBlockers p s))).foldr max 0)

/-- The generated `BISHOP_ATTACKS[sq]` / `ROOK_ATTACKS[sq]` row, rebuilt by
the write loop from the magic number `M`. -/
def attacksTable (p : SlidingPiece) (M sq : Nat) : Nat → Nat :=
  buildTableAux (fun i => mask_blockers i (relevantBlockers p sq))
    (fun i => maskSlidingAttacks p sq (mask_blockers i (relevantBlockers p sq)))
    M (popcount (relevantBlockers p sq)) (maxPatterns p) 0 (fun _ => 0)

/-- Source: `get_bishop_attacks` (`magic.rs` lines 152-159), with the
generated constants for the square rebuilt from magic number `M`:
`RELEVANT_BISHOP_BLOCKERS[sq]` is `mask_relevant_bishop_blockers sq`,
`RELEVANT_BISHOP_BLOCKERS_COUNT[sq]` its popcount and `BISHOP_ATTACKS[sq]`
the row built by `bishops::write`. -/
def get_bishop_attacks (M sq : Nat) (blockers : BitBoard) : BitBoard :=
  attacksTable .Bishop M sq
    (magicIndex (blockers &&& mask_relevant_bishop_blockers sq) M
      (popcount (mask_relevant_bishop_blockers sq)))

/-- Source: `get_rook_attacks` (`magic.rs` lines 190-197), constants rebuilt
as for `get_bishop_attacks`. -/
def get_rook_attacks (M sq : Nat) (blockers : BitBoard) : BitBoard :=
  attacksTable .Rook M sq
    (magicIndex (blockers &&& mask_relevant_rook_blockers sq) M
      (popcount (mask_relevant_rook_blockers sq)))

/-- The bishop or rook lookup, by piece. -/
def getSlidingAttacks : SlidingPiece → Nat → Nat → BitBoard → BitBoard
  | .Bishop => get_bishop_attacks
  | .Rook => get_rook_attacks

end Chess

namespace Chess

theorem U64_eq_pow : U64 = 2 ^ 64 := by norm_num [U64]

theorem U64MAX_eq_pow : U64MAX = 2 ^ 64 - 1 := by norm_num [U64MAX]

theorem shiftOne_lt {i : Nat} (h : i < 64) : (1 <<< i) % U64 = 2 ^ i := by
  rw [Nat.shiftLeft_eq, one_mul, Nat.mod_eq_of_lt]
  calc 2 ^ i < 2 ^ 64 := Nat.pow_lt_pow_right (by norm_num) h
    _ = U64 := U64_eq_pow.symm

theorem shiftOne_ge {i : Nat} (h : 64 ≤ i) : (1 <<< i) % U64 = 0 := by
  rw [Nat.shiftLeft_eq, one_mul, U64_eq_pow]
  exact Nat.mod_eq_zero_of_dvd (pow_dvd_pow 2 h)

theorem squareBB_eq {sq : Nat} (h : sq < 64) : squareBB sq = 2 ^ sq :=
  shiftOne_lt h

theorem testBit_ge64 {b : Nat} (hb : b < U64) {i : Nat} (hi : 64 ≤ i) :
    b.testBit i = false := by
  rw [U64_eq_pow] at hb
  exact Nat.testBit_lt_two_pow (lt_of_lt_of_le hb (Nat.pow_le_pow_right (by norm_num) hi))

theorem patternBit_eq {p i : Nat} (h : i < 64) :
    (p &&& ((1 <<< i) % U64) != 0) = p.testBit i := by
  rw [shiftOne_lt h]
  have hand : p &&& 2 ^ i = if p.testBit i then 2 ^ i else 0 := by
    refine Nat.eq_of_testBit_eq (fun j => ?_)
    rw [Nat.testBit_and, Nat.testBit_two_pow]
    by_cases hij : i = j
    · subst hij
      cases hpi : p.testBit i <;> simp [hpi]
    · cases hpi : p.testBit i <;> simp [hij]
  rw [hand]
  cases hpi : p.testBit i
  · simp
  · have h2 : (2 : Nat) ^ i ≠ 0 := by positivity
    simp [h2]

theorem patternBit_ge {p i : Nat} (h : 64 ≤ i) :
    (p &&& ((1 <<< i) % U64) != 0) = false := by
  rw [shiftOne_ge h, Nat.and_zero]
  rfl

theorem lor_eq_zero_iff {m n : Nat} : m ||| n = 0 ↔ m = 0 ∧ n = 0 := by
  constructor
  · intro h
    constructor
    · refine Nat.eq_of_testBit_eq (fun i => ?_)
      have h2 := congrArg (fun x => Nat.testBit x i) h
      simp only [Nat.testBit_or, Nat.zero_testBit, Bool.or_eq_false_iff] at h2
      simp [h2.1]
    · refine Nat.eq_of_testBit_eq (fun i => ?_)
      have h2 := congrArg (fun x => Nat.testBit x i) h
      simp only [Nat.testBit_or, Nat.zero_testBit, Bool.or_eq_false_iff] at h2
      simp [h2.2]
  · rintro ⟨rfl, rfl⟩
    rfl

theorem unsetSquare_testBit {b : Nat} (hb : b < U64) {sq : Nat} (hsq : sq < 64)
    (j : Nat) : (unsetSquare b sq).testBit j = (b.testBit j && !(decide (j = sq))) := by
  unfold unsetSquare unsetBit
  rw [squareBB_eq hsq]
  by_cases hj : j < 64
  · rw [Nat.testBit_and, Nat.testBit_xor]
    have hmax : U64MAX.testBit j = true := by
      rw [U64MAX_eq_pow, Nat.testBit_two_pow_sub_one]
      simpa using hj
    rw [hmax, Nat.testBit_two_pow]
    by_cases hjs : j = sq
    · subst hjs
      simp
    · have hsj : ¬sq = j := fun h => hjs h.symm
      simp [hjs, hsj]
  · have hbj : b.testBit j = false := testBit_ge64 hb (by omega)
    rw [Nat.testBit_and, hbj]
    simp

theorem unsetSquare_le (b : BitBoard) (sq : Nat) : unsetSquare b sq ≤ b :=
  Nat.and_le_left

theorem popcountAux_eq_sum : ∀ fuel b, popcountAux fuel b =
    ∑ j ∈ Finset.range fuel, (b.testBit j).toNat := by
  intro fuel
  induction fuel with
  | zero =>
    intro b
    simp [popcountAux]
  | succ n ih =>
    intro b
    have h1 : ∑ j ∈ Finset.range (n + 1), (b.testBit j).toNat
        = (∑ j ∈ Finset.range n, ((b / 2).testBit j).toNat) + (b.testBit 0).toNat := by
      rw [Finset.sum_range_succ']
      congr 1
      refine Finset.sum_congr rfl (fun j _ => ?_)
      congr 1
      simp [Nat.testBit_succ]
    rw [h1, ← ih (b / 2)]
    simp only [popcountAux]
    rcases Nat.mod_two_eq_zero_or_one b with h | h <;>
      simp [Nat.testBit_zero, h] <;> omega

theorem popcountAux_le : ∀ fuel b, popcountAux fuel b ≤ fuel := by
  intro fuel
  induction fuel with
  | zero =>
    intro b
    simp [popcountAux]
  | succ n ih =>
    intro b
    simp only [popcountAux]
    have := ih (b / 2)
    omega

theorem popcountAux_pos : ∀ fuel b, b ≠ 0 → b < 2 ^ fuel → 0 < popcountAux fuel b := by
  intro fuel
  induction fuel with
  | zero =>
    intro b hb hlt
    rw [pow_zero] at hlt
    omega
  | succ n ih =>
    intro b hb hlt
    simp only [popcountAux]
    by_cases h2 : b % 2 = 1
    · omega
    · have hne : b / 2 ≠ 0 := by omega
      have h3 : b / 2 < 2 ^ n := by
        rw [pow_succ] at hlt
        omega
      have := ih (b / 2) hne h3
      omega

theorem lsbAux_spec : ∀ fuel b, b ≠ 0 → b < 2 ^ fuel →
    b.testBit (lsbAux fuel b) = true ∧ (∀ j, j < lsbAux fuel b → b.testBit j = false) ∧
    lsbAux fuel b < fuel := by
  intro fuel
  induction fuel with
  | zero =>
    intro b hb hlt
    rw [pow_zero] at hlt
    omega
  | succ n ih =>
    intro b hb hlt
    by_cases h2 : b % 2 = 1
    · simp only [lsbAux, h2, if_true]
      refine ⟨by simp [Nat.testBit_zero, h2], fun j hj => by omega, by omega⟩
    · have hb2 : b / 2 ≠ 0 := by omega
      have hlt2 : b / 2 < 2 ^ n := by
        rw [pow_succ] at hlt
        omega
      obtain ⟨ih1, ih2, ih3⟩ := ih (b / 2) hb2 hlt2
      simp only [lsbAux, h2, if_false]
      refine ⟨?_, ?_, by omega⟩
      · rw [Nat.add_comm]
        simpa [Nat.testBit_succ] using ih1
      · intro j hj
        match j with
        | 0 =>
          simp [Nat.testBit_zero]
          omega
        | j + 1 =>
          have hj2 : j < lsbAux n (b / 2) := by omega
          simpa [Nat.testBit_succ] using ih2 j hj2

theorem lsb_spec {b : Nat} (hb : b ≠ 0) (hlt : b < U64) :
    b.testBit (lsb b) = true ∧ (∀ j, j < lsb b → b.testBit j = false) ∧ lsb b < 64 := by
  rw [U64_eq_pow] at hlt
  exact lsbAux_spec 64 b hb hlt

theorem popcount_unset_lsb {b : Nat} (hb : b ≠ 0) (hlt : b < U64) :
    popcount (unsetSquare b (lsb b)) + 1 = popcount b := by
  obtain ⟨h1, _, h3⟩ := lsb_spec hb hlt
  unfold popcount
  rw [popcountAux_eq_sum, popcountAux_eq_sum]
  have hl : lsb b ∈ Finset.range 64 := Finset.mem_range.mpr h3
  rw [← Finset.sum_erase_add _ _ hl, ← Finset.sum_erase_add _ (fun j => (b.testBit j).toNat) hl]
  have e1 : ((unsetSquare b (lsb b)).testBit (lsb b)).toNat = 0 := by
    rw [unsetSquare_testBit hlt h3]
    simp
  have e2 : (b.testBit (lsb b)).toNat = 1 := by
    rw [h1]
    rfl
  have e3 : ∑ j ∈ (Finset.range 64).erase (lsb b), ((unsetSquare b (lsb b)).testBit j).toNat
      = ∑ j ∈ (Finset.range 64).erase (lsb b), (b.testBit j).toNat := by
    refine Finset.sum_congr rfl (fun j hj => ?_)
    have hjne : j ≠ lsb b := Finset.ne_of_mem_erase hj
    rw [unsetSquare_testBit hlt h3]
    simp [hjne]
  rw [e1, e2, e3]

end Chess

namespace Chess

theorem lsq_some {blockers : BitBoard} {sq : Nat}
    (h : leastSignificantSquare blockers = some sq) :
    blockers ≠ 0 ∧ sq = lsb blockers := by
  unfold leastSignificantSquare at h
  by_cases hb : blockers = 0
  · rw [if_pos hb] at h
    cases h
  · rw [if_neg hb] at h
    exact ⟨hb, (Option.some_inj.mp h).symm⟩

theorem popcount_eq_zero {b : Nat} (hlt : b < U64) (h : popcount b = 0) : b = 0 := by
  by_contra hb
  have := popcountAux_pos 64 b hb (by rw [← U64_eq_pow]; exact hlt)
  unfold popcount at h
  omega

/-- The pattern argument of `maskBlockersAux` is read only at bit positions
`i, i+1, …, i + popcount blockers - 1`: patterns agreeing there produce the
same mask. -/
theorem maskBlockersAux_congr : ∀ fuel (blockers : BitBoard), blockers < U64 →
    ∀ (i : Nat) (mask : BitBoard) (p q : Nat),
    (∀ j, i ≤ j → j < i + popcount blockers → p.testBit j = q.testBit j) →
    maskBlockersAux fuel p blockers i mask = maskBlockersAux fuel q blockers i mask := by
  intro fuel
  induction fuel with
  | zero =>
    intro blockers _ i mask p q _
    rfl
  | succ n ih =>
    intro blockers hlt i mask p q hagree
    simp only [maskBlockersAux]
    cases hlsq : leastSignificantSquare blockers with
    | none => rfl
    | some sq =>
      obtain ⟨hbne, hsq⟩ := lsq_some hlsq
      obtain ⟨hl1, hl2, hl3⟩ := lsb_spec hbne hlt
      have hpc : 0 < popcount blockers :=
        popcountAux_pos 64 blockers hbne (by rw [← U64_eq_pow]; exact hlt)
      have hcond : (p &&& ((1 <<< i) % U64) != 0) = (q &&& ((1 <<< i) % U64) != 0) := by
        by_cases hi : i < 64
        · rw [patternBit_eq hi, patternBit_eq hi]
          exact hagree i le_rfl (by omega)
        · rw [patternBit_ge (by omega), patternBit_ge (by omega)]
      rw [hcond]
      have hlt2 : unsetSquare blockers sq < U64 :=
        lt_of_le_of_lt (unsetSquare_le _ _) hlt
      refine ih (unsetSquare blockers sq) hlt2 (i + 1) _ p q ?_
      intro j hj1 hj2
      have hpcu : popcount (unsetSquare blockers (lsb blockers)) + 1 = popcount blockers :=
        popcount_unset_lsb hbne hlt
      rw [hsq] at hj2
      exact hagree j (by omega) (by omega)

theorem testBit_high_add {i c : Nat} (ε : Nat) (hε : ε < 2) :
    ∀ j, i < j → (2 ^ (i + 1) * c + ε * 2 ^ i).testBit j = (2 ^ (i + 1) * c).testBit j := by
  intro j hj
  have h3 : ε * 2 ^ i < 2 ^ (i + 1) := by
    have hp : 0 < (2 : Nat) ^ i := Nat.pos_pow_of_pos i (by norm_num)
    have h5 : ε * 2 ^ i ≤ 1 * 2 ^ i := Nat.mul_le_mul_right _ (by omega)
    rw [pow_succ]
    omega
  rw [Nat.testBit_to_div_mod, Nat.testBit_to_div_mod]
  have h1 : (2 : Nat) ^ j = 2 ^ (i + 1) * 2 ^ (j - (i + 1)) := by
    rw [← pow_add]
    congr 1
    omega
  have h2 : (2 ^ (i + 1) * c + ε * 2 ^ i) / 2 ^ j = (2 ^ (i + 1) * c) / 2 ^ j := by
    rw [h1, ← Nat.div_div_eq_div_mul, ← Nat.div_div_eq_div_mul]
    congr 1
    rw [Nat.mul_add_div (by positivity), Nat.div_eq_of_lt h3, Nat.add_zero,
      Nat.mul_div_cancel_left _ (by positivity)]
  rw [h2]

theorem testBit_self_add {i c : Nat} (ε : Nat) (hε : ε < 2) :
    (2 ^ (i + 1) * c + ε * 2 ^ i).testBit i = decide (ε = 1) := by
  rw [Nat.testBit_to_div_mod]
  have h1 : 2 ^ (i + 1) * c + ε * 2 ^ i = 2 ^ i * (2 * c + ε) := by ring
  rw [h1, Nat.mul_div_cancel_left _ (by positivity)]
  interval_cases ε <;> simp <;> omega

/-- Every subset `B` of the blocker mask is hit by some pattern below
`2^(popcount blockers)` (the generalized statement threads the bit cursor
`i` and the mask accumulator through the loop). -/
theorem maskBlockersAux_surj : ∀ fuel (blockers : BitBoard), blockers < U64 →
    popcount blockers ≤ fuel →
    ∀ (B : Nat), B &&& blockers = B →
    ∀ (i : Nat), i + popcount blockers ≤ 64 →
    ∀ (mask : BitBoard),
    ∃ p, p < 2 ^ (i + popcount blockers) ∧ 2 ^ i ∣ p ∧
      maskBlockersAux fuel p blockers i mask = mask ||| B := by
  intro fuel
  induction fuel with
  | zero =>
    intro blockers hlt hfuel B hB i hi64 mask
    have hb0 : blockers = 0 := popcount_eq_zero hlt (by omega)
    subst hb0
    have hB0 : B = 0 := by
      rw [Nat.and_zero] at hB
      exact hB.symm
    subst hB0
    exact ⟨0, by positivity, ⟨0, by ring⟩, by simp [maskBlockersAux]⟩
  | succ n ih =>
    intro blockers hlt hfuel B hB i hi64 mask
    cases hlsq : leastSignificantSquare blockers with
    | none =>
      have hb0 : blockers = 0 := by
        by_contra hbne
        unfold leastSignificantSquare at hlsq
        rw [if_neg hbne] at hlsq
        cases hlsq
      subst hb0
      have hB0 : B = 0 := by
        rw [Nat.and_zero] at hB
        exact hB.symm
      subst hB0
      refine ⟨0, by positivity, ⟨0, by ring⟩, ?_⟩
      simp only [maskBlockersAux, hlsq]
      simp
    | some sq =>
      obtain ⟨hbne, hsq⟩ := lsq_some hlsq
      obtain ⟨hl1, hl2, hl3⟩ := lsb_spec hbne hlt
      have hsq64 : sq < 64 := by rw [hsq]; exact hl3
      have hBlt : B < U64 := by
        calc B = B &&& blockers := hB.symm
          _ ≤ blockers := Nat.and_le_right
          _ < U64 := hlt
      have hpcu : popcount (unsetSquare blockers (lsb blockers)) + 1 = popcount blockers :=
        popcount_unset_lsb hbne hlt
      have hpc : 0 < popcount blockers := by omega
      have hi : i < 64 := by omega
      have hsub : ∀ j, B.testBit j = true → blockers.testBit j = true := by
        intro j hj
        have h2 := congrArg (fun x => Nat.testBit x j) hB
        simp only [Nat.testBit_and] at h2
        rw [hj] at h2
        simpa using h2
      have hlt2 : unsetSquare blockers sq < U64 :=
        lt_of_le_of_lt (unsetSquare_le _ _) hlt
      have hsub2 : unsetSquare B sq &&& unsetSquare blockers sq = unsetSquare B sq := by
        refine Nat.eq_of_testBit_eq (fun j => ?_)
        rw [Nat.testBit_and, unsetSquare_testBit hBlt hsq64,
          unsetSquare_testBit hlt hsq64]
        by_cases hjs : j = sq
        · simp [hjs]
        · cases hBj : B.testBit j
          · simp
          · simp [hjs, hsub j hBj]
      have hfuel2 : popcount (unsetSquare blockers sq) ≤ n := by
        rw [hsq]
        omega
      have hexp : i + 1 + popcount (unsetSquare blockers sq) = i + popcount blockers := by
        rw [hsq]
        omega
      set ε : Nat := if B.testBit sq then 1 else 0 with hε
      have hε2 : ε < 2 := by
        rw [hε]
        split <;> omega
      set maskT : BitBoard := if B.testBit sq then setSquare mask sq else mask with hmaskT
      obtain ⟨pT, hp1, hp2, hp3⟩ :=
        ih (unsetSquare blockers sq) hlt2 hfuel2 (unsetSquare B sq) hsub2 (i + 1)
          (by omega) maskT
      obtain ⟨c, hc⟩ := hp2
      rw [hexp] at hp1
      refine ⟨pT + ε * 2 ^ i, ?_, ?_, ?_⟩
      · have h2d : (2 : Nat) ^ (i + 1) ∣ 2 ^ (i + popcount blockers) :=
          pow_dvd_pow 2 (by omega)
        have hdvd : (2 : Nat) ^ (i + 1) ∣ 2 ^ (i + popcount blockers) - pT :=
          Nat.dvd_sub' h2d ⟨c, hc⟩
        have hpos : 0 < 2 ^ (i + popcount blockers) - pT := by omega
        have hge := Nat.le_of_dvd hpos hdvd
        have hεle : ε * 2 ^ i < 2 ^ (i + 1) := by
          have hp : 0 < (2 : Nat) ^ i := Nat.pos_pow_of_pos i (by norm_num)
          have h5 : ε * 2 ^ i ≤ 1 * 2 ^ i := Nat.mul_le_mul_right _ (by omega)
          rw [pow_succ]
          omega
        omega
      · exact ⟨2 * c + ε, by rw [hc]; ring⟩
      · simp only [maskBlockersAux, hlsq]
        have hbit : (pT + ε * 2 ^ i &&& (1 <<< i) % U64 != 0) = B.testBit sq := by
          rw [patternBit_eq hi, hc, testBit_self_add ε hε2, hε]
          split <;> simp_all
        rw [hbit]
        have hstep : maskBlockersAux n (pT + ε * 2 ^ i) (unsetSquare blockers sq) (i + 1)
            (if B.testBit sq = true then setSquare mask sq else mask) =
            maskBlockersAux n pT (unsetSquare blockers sq) (i + 1)
            (if B.testBit sq = true then setSquare mask sq else mask) := by
          refine maskBlockersAux_congr n _ hlt2 (i + 1) _ _ _ ?_
          intro j hj1 hj2
          rw [hc, testBit_high_add ε hε2 j (by omega)]
        have hmaskT2 : (if B.testBit sq = true then setSquare mask sq else mask) = maskT := by
          rw [hmaskT]
        rw [hstep, hmaskT2, hp3]
        refine Nat.eq_of_testBit_eq (fun j => ?_)
        rw [Nat.testBit_or, Nat.testBit_or, unsetSquare_testBit hBlt hsq64]
        rw [hmaskT]
        by_cases hbs : B.testBit sq
        · simp only [hbs, if_true]
          unfold setSquare setBit
          rw [squareBB_eq hsq64, Nat.testBit_or, Nat.testBit_two_pow]
          by_cases hjs : j = sq
          · subst hjs
            simp [hbs]
          · have hsj : ¬sq = j := fun h => hjs h.symm
            simp [hjs, hsj]
        · simp only [hbs, if_false]
          by_cases hjs : j = sq
          · subst hjs
            simp only [Bool.not_eq_true] at hbs
            simp [hbs]
          · simp [hjs]

end Chess

namespace Chess

/-- Soundness of the verify pass: when it succeeds (given that attack sets
are never the `EMPTY` sentinel), any two scanned patterns whose magic
indices collide carry equal attack sets. -/
theorem verifyAux_sound (blocks atks : Nat → Nat) (M k : Nat)
    (hatks : ∀ i, atks i ≠ 0) :
    ∀ fuel start used,
    (∀ i, i < start → used (magicIndex (blocks i) M k) = atks i) →
    (∀ j, used j ≠ 0 → ∃ i, i < start ∧ magicIndex (blocks i) M k = j) →
    verifyAux blocks atks M k fuel start used = true →
    ∀ i i', i < start + fuel → i' < start + fuel →
      magicIndex (blocks i) M k = magicIndex (blocks i') M k → atks i = atks i' := by
  intro fuel
  induction fuel with
  | zero =>
    intro start used H1 H2 _ i i' hi hi' hmi
    have e1 := H1 i (by omega)
    have e2 := H1 i' (by omega)
    rw [← e1, ← e2, hmi]
  | succ n ih =>
    intro start used H1 H2 hverify i i' hi hi' hmi
    simp only [verifyAux] at hverify
    by_cases hz : used (magicIndex (blocks start) M k) = 0
    · rw [if_pos hz] at hverify
      refine ih (start + 1) _ ?_ ?_ hverify i i' (by omega) (by omega) hmi
      · intro i2 hi2
        by_cases heq : magicIndex (blocks i2) M k = magicIndex (blocks start) M k
        · rcases Nat.lt_or_ge i2 start with hlt | hge
          · exfalso
            have h3 := H1 i2 hlt
            rw [heq, hz] at h3
            exact hatks i2 h3.symm
          · have h4 : i2 = start := by omega
            subst h4
            rw [if_pos heq]
        · have hi2s : i2 < start := by
            rcases Nat.lt_or_ge i2 start with h | h
            · exact h
            · exfalso
              have h4 : i2 = start := by omega
              subst h4
              exact heq rfl
          rw [if_neg heq]
          exact H1 i2 hi2s
      · intro j hj
        by_cases hjeq : j = magicIndex (blocks start) M k
        · exact ⟨start, by omega, hjeq.symm⟩
        · rw [if_neg hjeq] at hj
          obtain ⟨i2, hi2, hmi2⟩ := H2 j hj
          exact ⟨i2, by omega, hmi2⟩
    · rw [if_neg hz] at hverify
      by_cases he : used (magicIndex (blocks start) M k) = atks start
      · rw [if_pos he] at hverify
        refine ih (start + 1) used ?_ ?_ hverify i i' (by omega) (by omega) hmi
        · intro i2 hi2
          rcases Nat.lt_or_ge i2 start with hlt | hge
          · exact H1 i2 hlt
          · have h4 : i2 = start := by omega
            subst h4
            exact he
        · intro j hj
          obtain ⟨i2, hi2, hmi2⟩ := H2 j hj
          exact ⟨i2, by omega, hmi2⟩
      · rw [if_neg he] at hverify
        cases hverify

/-- Slots no scanned pattern maps to keep their initial table value. -/
theorem buildTableAux_untouched (blocks atks : Nat → Nat) (M k : Nat) :
    ∀ fuel start tbl j,
    (∀ i, start ≤ i → i < start + fuel → magicIndex (blocks i) M k ≠ j) →
    buildTableAux blocks atks M k fuel start tbl j = tbl j := by
  intro fuel
  induction fuel with
  | zero =>
    intro start tbl j _
    rfl
  | succ n ih =>
    intro start tbl j hne
    simp only [buildTableAux]
    rw [ih (start + 1) _ j (fun i h1 h2 => hne i (by omega) (by omega))]
    rw [if_neg (fun h => hne start le_rfl (by omega) h.symm)]

/-- The built table answers every scanned pattern's slot with that pattern's
attack set, provided colliding patterns agree. -/
theorem buildTableAux_lookup (blocks atks : Nat → Nat) (M k : Nat) :
    ∀ fuel start tbl i0,
    start ≤ i0 → i0 < start + fuel →
    (∀ i i', start ≤ i → i < start + fuel → start ≤ i' → i' < start + fuel →
      magicIndex (blocks i) M k = magicIndex (blocks i') M k → atks i = atks i') →
    buildTableAux blocks atks M k fuel start tbl (magicIndex (blocks i0) M k) = atks i0 := by
  intro fuel
  induction fuel with
  | zero =>
    intro start tbl i0 h1 h2 _
    omega
  | succ n ih =>
    intro start tbl i0 h1 h2 hcons
    simp only [buildTableAux]
    by_cases hex : ∃ i1, start + 1 ≤ i1 ∧ i1 < start + 1 + n ∧
        magicIndex (blocks i1) M k = magicIndex (blocks i0) M k
    · obtain ⟨i1, hi1a, hi1b, hi1c⟩ := hex
      rw [← hi1c]
      rw [ih (start + 1) _ i1 hi1a (by omega)
        (fun a b ha1 ha2 hb1 hb2 hab => hcons a b (by omega) (by omega) (by omega) (by omega) hab)]
      exact hcons i1 i0 (by omega) (by omega) (by omega) (by omega) hi1c
    · push_neg at hex
      rcases Nat.eq_or_lt_of_le h1 with heq | hlt
      · rw [buildTableAux_untouched blocks atks M k n (start + 1) _ _ hex]
        rw [← heq]
        simp
      · exact absurd rfl (hex i0 (by omega) (by omega))

theorem rayAux_ne_zero (step : BitBoard → BitBoard) (blockers : BitBoard)
    (fuel : Nat) (pos : BitBoard) (hpos : pos ≠ 0) :
    rayAux step blockers (fuel + 1) pos ≠ 0 := by
  simp only [rayAux]
  rw [if_neg hpos]
  split
  · exact hpos
  · unfold setBit
    intro h
    exact hpos (lor_eq_zero_iff.mp h).1

/-- Every square has at least one on-board diagonal neighbor. -/
theorem bishop_first_step : ∀ sq, sq < 64 →
    bbRight (bbUp (squareBB sq)) ≠ 0 ∨ bbLeft (bbUp (squareBB sq)) ≠ 0 ∨
    bbRight (bbDown (squareBB sq)) ≠ 0 ∨ bbLeft (bbDown (squareBB sq)) ≠ 0 := by
  decide

/-- Every square has at least one on-board orthogonal neighbor. -/
theorem rook_first_step : ∀ sq, sq < 64 →
    bbUp (squareBB sq) ≠ 0 ∨ bbRight (squareBB sq) ≠ 0 ∨
    bbDown (squareBB sq) ≠ 0 ∨ bbLeft (squareBB sq) ≠ 0 := by
  decide

/-- A bishop's ray attacks are never empty (first steps are included no
matter the blockers). -/
theorem mask_bishop_attacks_ne_zero {sq : Nat} (hsq : sq < 64) (blockers : BitBoard) :
    mask_bishop_attacks sq blockers ≠ 0 := by
  simp only [mask_bishop_attacks]
  intro h
  obtain ⟨h1, h4⟩ := lor_eq_zero_iff.mp h
  obtain ⟨h2, h3⟩ := lor_eq_zero_iff.mp h1
  obtain ⟨hA, hB⟩ := lor_eq_zero_iff.mp h2
  rcases bishop_first_step sq hsq with hs | hs | hs | hs
  · exact rayAux_ne_zero _ blockers 7 _ hs hA
  · exact rayAux_ne_zero _ blockers 7 _ hs hB
  · exact rayAux_ne_zero _ blockers 7 _ hs h3
  · exact rayAux_ne_zero _ blockers 7 _ hs h4

/-- A rook's ray attacks are never empty. -/
theorem mask_rook_attacks_ne_zero {sq : Nat} (hsq : sq < 64) (blockers : BitBoard) :
    mask_rook_attacks sq blockers ≠ 0 := by
  simp only [mask_rook_attacks]
  intro h
  obtain ⟨h1, h4⟩ := lor_eq_zero_iff.mp h
  obtain ⟨h2, h3⟩ := lor_eq_zero_iff.mp h1
  obtain ⟨hA, hB⟩ := lor_eq_zero_iff.mp h2
  rcases rook_first_step sq hsq with hs | hs | hs | hs
  · exact rayAux_ne_zero _ blockers 7 _ hs hA
  · exact rayAux_ne_zero _ blockers 7 _ hs hB
  · exact rayAux_ne_zero _ blockers 7 _ hs h3
  · exact rayAux_ne_zero _ blockers 7 _ hs h4

theorem relevantBlockers_lt (p : SlidingPiece) : ∀ sq, sq < 64 →
    relevantBlockers p sq < U64 := by
  cases p <;> decide

theorem le_foldr_max : ∀ (l : List Nat) (x : Nat), x ∈ l → x ≤ l.foldr max 0 := by
  intro l
  induction l with
  | nil =>
    intro x hx
    cases hx
  | cons a l ih =>
    intro x hx
    rcases List.mem_cons.mp hx with rfl | hx
    · simp only [List.foldr]
      exact le_max_left _ _
    · simp only [List.foldr]
      exact le_trans (ih x hx) (le_max_right _ _)

theorem popcount_le_maxPatterns {p : SlidingPiece} {sq : Nat} (hsq : sq < 64) :
    2 ^ popcount (relevantBlockers p sq) ≤ maxPatterns p := by
  unfold maxPatterns
  refine Nat.pow_le_pow_right (by norm_num) ?_
  exact le_foldr_max _ _ (List.mem_map.mpr ⟨sq, List.mem_range.mpr hsq, rfl⟩)

/-- Abstract core of the magic-table correctness: a verified magic number
makes the built table return each scanned pattern's attack set, even though
the build loop scans more patterns (`F`) than the verify loop (`2^k`),
because extra patterns repeat modulo `2^k`. -/
theorem magic_table_correct (blocks atks : Nat → Nat) (M k F : Nat)
    (hmod : ∀ i, blocks i = blocks (i % 2 ^ k))
    (hatk : ∀ i i', blocks i = blocks i' → atks i = atks i')
    (hatkne : ∀ i, atks i ≠ 0)
    (hver : verifyAux blocks atks M k (2 ^ k) 0 (fun _ => 0) = true)
    (p0 : Nat) (hp0 : p0 < 2 ^ k) (hkF : 2 ^ k ≤ F) :
    buildTableAux blocks atks M k F 0 (fun _ => 0) (magicIndex (blocks p0) M k) = atks p0 := by
  have hcons0 : ∀ i i', i < 2 ^ k → i' < 2 ^ k →
      magicIndex (blocks i) M k = magicIndex (blocks i') M k → atks i = atks i' := by
    intro i i' hi hi' hmi
    refine verifyAux_sound blocks atks M k hatkne (2 ^ k) 0 (fun _ => 0)
      (fun i h => absurd h (by omega)) (fun j hj => absurd rfl hj) hver i i'
      (by omega) (by omega) hmi
  have hconsF : ∀ i i', 0 ≤ i → i < 0 + F → 0 ≤ i' → i' < 0 + F →
      magicIndex (blocks i) M k = magicIndex (blocks i') M k → atks i = atks i' := by
    intro i i' _ _ _ _ hmi
    have hpk : 0 < 2 ^ k := Nat.pos_pow_of_pos k (by norm_num)
    have e1 : blocks i = blocks (i % 2 ^ k) := hmod i
    have e2 : blocks i' = blocks (i' % 2 ^ k) := hmod i'
    have hmi2 : magicIndex (blocks (i % 2 ^ k)) M k =
        magicIndex (blocks (i' % 2 ^ k)) M k := by
      rw [← e1, ← e2]
      exact hmi
    calc atks i = atks (i % 2 ^ k) := hatk _ _ e1
      _ = atks (i' % 2 ^ k) :=
        hcons0 _ _ (Nat.mod_lt _ hpk) (Nat.mod_lt _ hpk) hmi2
      _ = atks i' := (hatk _ _ e2).symm
  exact buildTableAux_lookup blocks atks M k F 0 _ p0 (by omega) (by omega) hconsF

end Chess

namespace Chess

/-- Claim C3.  For every square `s`, slider `p ∈ {Bishop, Rook}` and blocker
set `B ⊆ relevant_blockers(p, s)`, the magic-indexed table lookup of
`get_bishop_attacks` / `get_rook_attacks` — with any magic number satisfying
the acceptance predicate of the offline search (`magic_number`'s sparsity
precheck plus a successful verify pass) and the attack table built from it
by the generation code — returns exactly the ray-cast attack set
(`mask_bishop_attacks` / `mask_rook_attacks`), where each ray stops at and
includes the first blocker. -/
theorem c3_magic_attacks_correct (p : SlidingPiece) (sq M B : Nat)
    (hsq : sq < 64) (hacc : magicAccepted p sq M = true)
    (hB : B &&& relevantBlockers p sq = B) :
    getSlidingAttacks p M sq B = maskSlidingAttacks p sq B := by
  have hrellt : relevantBlockers p sq < U64 := relevantBlockers_lt p sq hsq
  have hverify : verifyAux (fun i => mask_blockers i (relevantBlockers p sq))
      (fun i => maskSlidingAttacks p sq (mask_blockers i (relevantBlockers p sq))) M
      (popcount (relevantBlockers p sq)) (2 ^ popcount (relevantBlockers p sq)) 0
      (fun _ => 0) = true := by
    simp only [magicAccepted, Bool.and_eq_true] at hacc
    exact hacc.2
  have hpcle : popcount (relevantBlockers p sq) ≤ 64 := popcountAux_le 64 _
  obtain ⟨p0, hp0lt, _, hp0eq⟩ := maskBlockersAux_surj 64 (relevantBlockers p sq) hrellt
    hpcle B hB 0 (by omega) 0
  have hp0eq2 : mask_blockers p0 (relevantBlockers p sq) = B := by
    unfold mask_blockers
    rw [hp0eq]
    simp
  have hmod : ∀ i, mask_blockers i (relevantBlockers p sq) =
      mask_blockers (i % 2 ^ popcount (relevantBlockers p sq)) (relevantBlockers p sq) := by
    intro i
    unfold mask_blockers
    refine maskBlockersAux_congr 64 _ hrellt 0 0 _ _ ?_
    intro j hj1 hj2
    rw [Nat.testBit_mod_two_pow]
    have hjk : j < popcount (relevantBlockers p sq) := by omega
    simp [hjk]
  have hatkne : ∀ i, maskSlidingAttacks p sq (mask_blockers i (relevantBlockers p sq)) ≠ 0 := by
    intro i
    cases p
    · exact mask_bishop_attacks_ne_zero hsq _
    · exact mask_rook_attacks_ne_zero hsq _
  have hmain := magic_table_correct
    (fun i => mask_blockers i (relevantBlockers p sq))
    (fun i => maskSlidingAttacks p sq (mask_blockers i (relevantBlockers p sq)))
    M (popcount (relevantBlockers p sq)) (maxPatterns p)
    (fun i => hmod i)
    (fun i i' h => congrArg (maskSlidingAttacks p sq) h)
    hatkne hverify p0 (by simpa using hp0lt) (popcount_le_maxPatterns hsq)
  simp only [hp0eq2] at hmain
  cases p
  · simp only [getSlidingAttacks, get_bishop_attacks, maskSlidingAttacks,
      relevantBlockers] at hmain hB ⊢
    unfold attacksTable
    simp only [relevantBlockers, maskSlidingAttacks]
    rw [hB]
    exact hmain
  · simp only [getSlidingAttacks, get_rook_attacks, maskSlidingAttacks,
      relevantBlockers] at hmain hB ⊢
    unfold attacksTable
    simp only [relevantBlockers, maskSlidingAttacks]
    rw [hB]
    exact hmain

end Chess

namespace Chess

/-- Witness for C3: the magic number 4620697688777425424 passes the search's
acceptance predicate for the bishop on a1 (square 0), and the theorem
applies at the blocker subset {c3, f6} of the a1 diagonal. -/
theorem c3_magic_attacks_correct_witness :
    (0 : Nat) < 64 ∧
    magicAccepted SlidingPiece.Bishop 0 4620697688777425424 = true ∧
    (35184372350976 : Nat) &&& relevantBlockers SlidingPiece.Bishop 0 = 35184372350976 ∧
    getSlidingAttacks SlidingPiece.Bishop 4620697688777425424 0 35184372350976 =
      maskSlidingAttacks SlidingPiece.Bishop 0 35184372350976 :=
  ⟨by decide, by decide, by decide,
    c3_magic_attacks_correct SlidingPiece.Bishop 0 4620697688777425424 35184372350976
      (by decide) (by decide) (by decide)⟩

end Chess
